import Mathlib

set_option maxHeartbeats 1000000

/-!
Verification development for the in-process background task scheduler of the
VibeEdit backend (`app/services/task_queue.py`).

The Python module is shallowly embedded below:
* `TaskStatus` / `Task` mirror the dataclasses at the top of the file
  (timestamps are modelled as natural-number clock readings; `uuid.uuid4()` is
  modelled by a fresh counter, since only freshness of the ids matters;
  the opaque submit-time `args`/`kwargs` and the function body are folded into
  a `WorkUnit`, which records whether the callable's signature accepts the
  extra `task=` keyword that the worker always passes, and what invoking it
  yields: a normal return, a raised `Exception`, or a raised
  `asyncio.CancelledError` — the latter is a `BaseException` in Python and is
  therefore not caught by the worker's `except Exception` handler).
* Dictionaries (`self.tasks`, `self._callbacks`, `Task.metadata`) are modelled
  as association lists with the usual first-match lookup.
* The scheduler itself is a state-transition system `Step` over `QueueState`:
  each public method and each observable phase of the worker coroutine is one
  transition. The worker loop body has no suspension point between dequeuing
  an id and stamping `RUNNING`, and none between the work unit finishing and
  the terminal field writes plus callback firing, so those two phases are the
  two atomic transitions `dispatchBegin` / `dispatchFinish`. The deferred
  `asyncio.create_task(self._enqueue(task_id))` made by `submit` is modelled
  by the `pendingEnqueues` buffer and a separate `runEnqueue` transition.
-/

namespace VibeEdit

/-- Mirror of `TaskStatus` in task_queue.py. -/
inductive TaskStatus
  | pending
  | running
  | completed
  | failed
  | cancelled
deriving DecidableEq

/-- Terminal states, as in the spec glossary: COMPLETED, FAILED or CANCELLED. -/
def TaskStatus.isTerminal : TaskStatus → Bool
  | .completed => true
  | .failed => true
  | .cancelled => true
  | .pending => false
  | .running => false

/-- Outcome of invoking a work unit once the call has bound its arguments. -/
inductive WorkResult
  | ok (v : Nat)
  | exc (en em : String)
  | cancelledError
deriving DecidableEq

/-- A caller-supplied work unit: whether its signature accepts the keyword
argument `task` (directly or via kwargs), and what running its body yields. -/
structure WorkUnit where
  acceptsTaskKw : Bool
  outcome : WorkResult
deriving DecidableEq

/-- Message of the TypeError Python raises when a call passes an unexpected
keyword argument named `task`. -/
def taskKwMsg : String := "got an unexpected keyword argument task"

/-- Semantics of the call `task.func(*task.args, **task.kwargs, task=task)`:
if the signature does not accept the `task` keyword, Python raises a TypeError
at the call site and the body never runs; otherwise the body's outcome. -/
def callWork (w : WorkUnit) : WorkResult :=
  if w.acceptsTaskKw then w.outcome else .exc "TypeError" taskKwMsg

/-- Mirror of the `Task` dataclass. -/
structure Task where
  id : Nat
  name : String
  func : WorkUnit
  status : TaskStatus := .pending
  priority : Nat := 5
  progress : Int := 0
  result : Option Nat := none
  error : Option String := none
  created_at : Nat := 0
  started_at : Option Nat := none
  completed_at : Option Nat := none
  user_id : Option String := none
  metadata : List (String × String) := []
deriving DecidableEq

/-- First-match association-list lookup (dictionary read). -/
def alookup {κ α : Type} [DecidableEq κ] : List (κ × α) → κ → Option α
  | [], _ => none
  | (k, v) :: rest, q => if k = q then some v else alookup rest q

/-- Update every entry whose key matches (dictionary in-place mutation;
keys are kept unique by the scheduler invariant). -/
def aset {κ α : Type} [DecidableEq κ] (f : α → α) : List (κ × α) → κ → List (κ × α)
  | [], _ => []
  | (k, v) :: rest, q =>
      if k = q then (k, f v) :: aset f rest q else (k, v) :: aset f rest q

/-- Delete a key (Python `del d[k]` / `d.pop(k, ...)`). -/
def aremoveKey {κ α : Type} [DecidableEq κ] (l : List (κ × α)) (q : κ) : List (κ × α) :=
  l.filter (fun kv => kv.1 ≠ q)

/-- Write one key of a string dictionary, preserving insertion order as Python
dicts do: replace the existing entry or append a fresh one at the end. -/
def msetKey : List (String × String) → String → String → List (String × String)
  | [], k, v => [(k, v)]
  | (k0, v0) :: rest, k, v =>
      if k0 = k then (k0, v) :: rest else (k0, v0) :: msetKey rest k v

/-- Python `base.update(patch)`: fold the patch items into the base dict in
order, so a later write to the same key wins. -/
def dictUpdate (base patch : List (String × String)) : List (String × String) :=
  patch.foldl (fun acc kv => msetKey acc kv.1 kv.2) base

/-- Mirror of `min(max(progress, 0), 100)` in `update_progress`. -/
def clampProgress (v : Int) : Int := min (max v 0) 100

/-- The inner try/except/finally of `TaskQueue._worker`, operating on the
task record once it is RUNNING. Returns the updated record and whether the
worker coroutine survives this iteration: a raised `asyncio.CancelledError`
is not caught by `except Exception`, so the `finally` block still stamps
`completed_at` but the error escapes to the outer handler, which breaks the
loop and leaves the status untouched (still RUNNING). -/
def runTaskBody (t : Task) (now : Nat) : Task × Bool :=
  match callWork t.func with
  | .ok v =>
      ({ t with result := some v, status := .completed, progress := 100,
                completed_at := some now }, true)
  | .exc en em =>
      ({ t with status := .failed, error := some (en ++ ": " ++ em),
                completed_at := some now }, true)
  | .cancelledError =>
      ({ t with completed_at := some now }, false)

/-- Result of one full worker-loop iteration on a dequeued id. -/
structure IterOut where
  tasks : List (Nat × Task)
  callbacks : List (Nat × List Nat)
  fired : List (Nat × Nat × Task)
  alive : Bool
deriving DecidableEq

/-- One iteration of `TaskQueue._worker` after an id has been dequeued:
look the task up, skip it when missing or CANCELLED, otherwise stamp RUNNING
and `started_at`, run the body, write the terminal fields, pop and fire the
completion callbacks (each fired entry records the task id, the callback tag
and the task record the callback observes). `alive` is false exactly when the
iteration broke the worker loop. -/
def workerStep (reg : List (Nat × Task)) (cbs : List (Nat × List Nat))
    (now : Nat) (id : Nat) : IterOut :=
  match alookup reg id with
  | none => ⟨reg, cbs, [], true⟩
  | some t =>
      if t.status = .cancelled then ⟨reg, cbs, [], true⟩
      else
        let t1 : Task := { t with status := .running, started_at := some now }
        let r := runTaskBody t1 now
        let cl := (alookup cbs id).getD []
        ⟨aset (fun _ => r.1) reg id, aremoveKey cbs id,
          cl.map (fun c => (id, c, r.1)), r.2⟩

/-- Result of running the worker loop over a finite script of dequeued ids. -/
structure LoopOut where
  tasks : List (Nat × Task)
  callbacks : List (Nat × List Nat)
  fired : List (Nat × Nat × Task)
  unprocessed : List Nat
deriving DecidableEq

/-- The worker loop of `TaskQueue._worker` over a finite dequeue script:
process ids in order; when an iteration breaks the loop (uncaught
`asyncio.CancelledError`), the remaining ids are left unprocessed. -/
def workerLoop (reg : List (Nat × Task)) (cbs : List (Nat × List Nat))
    (now : Nat) : List Nat → LoopOut
  | [] => ⟨reg, cbs, [], []⟩
  | i :: rest =>
      let o := workerStep reg cbs now i
      if o.alive then
        let r := workerLoop o.tasks o.callbacks now rest
        ⟨r.tasks, r.callbacks, o.fired ++ r.fired, r.unprocessed⟩
      else ⟨o.tasks, o.callbacks, o.fired, rest⟩

/-- Global scheduler state: the fields of `TaskQueue` plus the bookkeeping
that makes the asynchronous pieces explicit (`pendingEnqueues` for deferred
`_enqueue` coroutines, `execs` for ids currently being executed by a worker,
`fired` as the log of callback invocations, `invoked` as the log of work-unit
bodies that actually ran, `clock` for `datetime.now()`). -/
structure QueueState where
  tasks : List (Nat × Task) := []
  queue : Option (List Nat) := none
  running : Bool := false
  pendingEnqueues : List Nat := []
  execs : List Nat := []
  callbacks : List (Nat × List Nat) := []
  fired : List (Nat × Nat × Task) := []
  invoked : List Nat := []
  nextId : Nat := 0
  clock : Nat := 0
deriving DecidableEq

/-- State of a freshly constructed `TaskQueue` (no queue allocated yet). -/
def initState : QueueState := {}

/-- Status of a registered task, as `get_task(id)` would report it. -/
def statusOf (s : QueueState) (id : Nat) : Option TaskStatus :=
  (alookup s.tasks id).map Task.status

/-- Contents of the pending queue (empty when no queue is allocated). -/
def queueIds (s : QueueState) : List Nat := s.queue.getD []

/-- Every id currently held by the queue, a deferred enqueue, or a worker. -/
def allIds (s : QueueState) : List Nat :=
  queueIds s ++ s.pendingEnqueues ++ s.execs

/-- Mirror of `TaskQueue.submit`: build the PENDING task, register it, and
schedule the deferred `_enqueue` coroutine; return the fresh id. There is no
check of `_running` anywhere in the method. -/
def submitF (s : QueueState) (nm : String) (w : WorkUnit) (pr : Nat)
    (ow : Option String) (md : List (String × String)) : QueueState × Nat :=
  let id := s.nextId
  let t : Task := { id := id, name := nm, func := w, priority := pr,
                    user_id := ow, metadata := md, created_at := s.clock }
  ({ s with tasks := (id, t) :: s.tasks,
            pendingEnqueues := s.pendingEnqueues ++ [id],
            nextId := id + 1 }, id)

/-- Mirror of `TaskQueue._enqueue` finally running: put the id at the tail of
the queue if a queue object exists (`if self.queue:`), else drop it. -/
def runEnqueueF (s : QueueState) (i : Nat) (rest : List Nat) : QueueState :=
  match s.queue with
  | some q => { s with queue := some (q ++ [i]), pendingEnqueues := rest }
  | none => { s with pendingEnqueues := rest }

/-- Mirror of `TaskQueue.start`: no-op when already running; otherwise set
`_running` and allocate a fresh `asyncio.Queue()` (discarding any previous
queue object together with its contents). -/
def startF (s : QueueState) : QueueState :=
  if s.running then s else { s with running := true, queue := some [] }

/-- Mirror of `TaskQueue.stop`: clear `_running` (the queue object and its
contents are left in place; workers exit at their next suspension point). -/
def stopF (s : QueueState) : QueueState :=
  { s with running := false }

/-- Mirror of `TaskQueue.cancel_task`: succeed exactly on a registered
PENDING task, setting CANCELLED and touching nothing else. -/
def cancelF (s : QueueState) (id : Nat) : QueueState × Bool :=
  match alookup s.tasks id with
  | some t =>
      if t.status = .pending then
        ({ s with tasks := aset (fun u => { u with status := .cancelled }) s.tasks id }, true)
      else (s, false)
  | none => (s, false)

/-- Mirror of `TaskQueue.update_progress`: clamp into [0, 100] and merge the
metadata patch (skipped when the patch is falsy, i.e. empty). Unknown ids are
silently ignored. -/
def updateProgressF (s : QueueState) (id : Nat) (v : Int)
    (md : List (String × String)) : QueueState :=
  match alookup s.tasks id with
  | none => s
  | some _ =>
      { s with tasks := aset (fun t =>
          { t with progress := clampProgress v,
                   metadata := if md.isEmpty then t.metadata
                               else dictUpdate t.metadata md }) s.tasks id }

/-- Append a callback tag under an id (`self._callbacks.setdefault`-style
branch of `on_complete`). -/
def addCb : List (Nat × List Nat) → Nat → Nat → List (Nat × List Nat)
  | [], id, c => [(id, [c])]
  | (k, l) :: rest, id, c =>
      if k = id then (k, l ++ [c]) :: rest else (k, l) :: addCb rest id c

/-- Mirror of `TaskQueue.on_complete`. -/
def onCompleteF (s : QueueState) (id c : Nat) : QueueState :=
  { s with callbacks := addCb s.callbacks id c }

/-- First phase of a worker iteration: dequeue the head id; when the task is
missing or CANCELLED, discard the id and loop; otherwise stamp RUNNING and
`started_at` and claim the id for execution. -/
def dispatchBeginF (s : QueueState) (i : Nat) (rest : List Nat) : QueueState :=
  match alookup s.tasks i with
  | none => { s with queue := some rest }
  | some t =>
      if t.status = .cancelled then { s with queue := some rest }
      else
        { s with queue := some rest,
                 tasks := aset (fun u =>
                   { u with status := .running, started_at := some s.clock }) s.tasks i,
                 execs := s.execs ++ [i] }

/-- Second phase of a worker iteration: the work unit has returned or raised;
write the terminal fields via `runTaskBody`, pop the callbacks for the id and
fire them in registration order with the updated record, and record whether
the work-unit body actually ran (the call binds only when the signature
accepts the `task` keyword). -/
def dispatchFinishF (s : QueueState) (i : Nat) : QueueState :=
  match alookup s.tasks i with
  | none => { s with execs := s.execs.erase i }
  | some t =>
      let r := runTaskBody t s.clock
      let cl := (alookup s.callbacks i).getD []
      { s with tasks := aset (fun _ => r.1) s.tasks i,
               execs := s.execs.erase i,
               callbacks := aremoveKey s.callbacks i,
               fired := s.fired ++ cl.map (fun c => (i, c, r.1)),
               invoked := if t.func.acceptsTaskKw then s.invoked ++ [i] else s.invoked }

/-- Mirror of the removal test in `cleanup_old_tasks`: terminal status, a set
`completed_at`, and age strictly greater than `max_age_hours`. The Python
comparison `(cutoff - completed_at).total_seconds() / 3600 > max_age_hours`
is expressed over integer seconds as `maxAge * 3600 < clock - c`. -/
def removableTask (clock maxAge : Nat) (t : Task) : Bool :=
  t.status.isTerminal &&
    match t.completed_at with
    | some c => decide (maxAge * 3600 < clock - c)
    | none => false

/-- The first loop of `cleanup_old_tasks`, collecting `to_remove`. -/
def collectRemovable (clock maxAge : Nat) : List (Nat × Task) → List Nat
  | [] => []
  | (k, t) :: rest =>
      if removableTask clock maxAge t then k :: collectRemovable clock maxAge rest
      else collectRemovable clock maxAge rest

/-- Mirror of `TaskQueue.cleanup_old_tasks`: collect the removable ids, then
delete them one by one; return how many were collected. -/
def cleanupF (s : QueueState) (maxAge : Nat) : QueueState × Nat :=
  let toRemove := collectRemovable s.clock maxAge s.tasks
  ({ s with tasks := toRemove.foldl (fun reg k => aremoveKey reg k) s.tasks },
   toRemove.length)

/-- One observable transition of the scheduler: a public method call, a
deferred enqueue landing, one of the two worker phases, or the clock moving
forward. -/
inductive Step : QueueState → QueueState → Prop
  | submit (s : QueueState) (nm : String) (w : WorkUnit) (pr : Nat)
      (ow : Option String) (md : List (String × String)) :
      Step s (submitF s nm w pr ow md).1
  | runEnqueue (s : QueueState) (i : Nat) (rest : List Nat)
      (h : s.pendingEnqueues = i :: rest) :
      Step s (runEnqueueF s i rest)
  | start (s : QueueState) : Step s (startF s)
  | stop (s : QueueState) : Step s (stopF s)
  | cancel (s : QueueState) (i : Nat) : Step s (cancelF s i).1
  | updateProgress (s : QueueState) (i : Nat) (v : Int)
      (md : List (String × String)) :
      Step s (updateProgressF s i v md)
  | onComplete (s : QueueState) (i c : Nat) : Step s (onCompleteF s i c)
  | dispatchBegin (s : QueueState) (i : Nat) (rest : List Nat)
      (hr : s.running = true) (hq : s.queue = some (i :: rest)) :
      Step s (dispatchBeginF s i rest)
  | dispatchFinish (s : QueueState) (i : Nat) (h : i ∈ s.execs) :
      Step s (dispatchFinishF s i)
  | cleanup (s : QueueState) (maxAge : Nat) : Step s (cleanupF s maxAge).1
  | tick (s : QueueState) (d : Nat) : Step s { s with clock := s.clock + d }

/-- Zero or more transitions. -/
inductive ReachFrom : QueueState → QueueState → Prop
  | refl (s : QueueState) : ReachFrom s s
  | step {s s' s'' : QueueState} : ReachFrom s s' → Step s' s'' → ReachFrom s s''

/-- States the scheduler can actually be in. -/
def Reachable (s : QueueState) : Prop := ReachFrom initState s

/-! Association-list toolkit. -/

theorem alookup_aset {κ α : Type} [DecidableEq κ] (f : α → α)
    (l : List (κ × α)) (q j : κ) :
    alookup (aset f l q) j =
      if j = q then (alookup l q).map f else alookup l j := by
  induction l with
  | nil => by_cases h : j = q <;> simp [alookup, aset, h]
  | cons kv rest ih =>
      obtain ⟨k, v⟩ := kv
      by_cases hkq : k = q
      · subst hkq
        by_cases hjk : j = k
        · subst hjk; simp [alookup, aset]
        · simp [alookup, aset, hjk, Ne.symm hjk, ih]
      · by_cases hjk : j = k
        · subst hjk
          simp [alookup, aset, hkq, fun h : j = q => hkq h]
        · simp [alookup, aset, hkq, hjk, Ne.symm hjk, ih]

theorem aremoveKey_nil {κ α : Type} [DecidableEq κ] (q : κ) :
    aremoveKey ([] : List (κ × α)) q = [] := rfl

theorem aremoveKey_cons {κ α : Type} [DecidableEq κ] (k : κ) (v : α)
    (rest : List (κ × α)) (q : κ) :
    aremoveKey ((k, v) :: rest) q =
      if k = q then aremoveKey rest q else (k, v) :: aremoveKey rest q := by
  by_cases h : k = q <;> simp [aremoveKey, List.filter_cons, h]

theorem alookup_aremoveKey {κ α : Type} [DecidableEq κ]
    (l : List (κ × α)) (q j : κ) :
    alookup (aremoveKey l q) j = if j = q then none else alookup l j := by
  induction l with
  | nil => by_cases h : j = q <;> simp [alookup, aremoveKey_nil, h]
  | cons kv rest ih =>
      obtain ⟨k, v⟩ := kv
      by_cases hkq : k = q
      · subst hkq
        by_cases hjk : j = k
        · subst hjk; simp [alookup, aremoveKey_cons, ih]
        · simp [alookup, aremoveKey_cons, hjk, Ne.symm hjk, ih]
      · by_cases hjk : j = k
        · subst hjk
          simp [alookup, aremoveKey_cons, hkq, fun h : j = q => hkq h]
        · simp [alookup, aremoveKey_cons, hkq, hjk, Ne.symm hjk, ih]

theorem alookup_msetKey (m : List (String × String)) (k v : String) (j : String) :
    alookup (msetKey m k v) j = if j = k then some v else alookup m j := by
  induction m with
  | nil =>
      by_cases h : j = k
      · subst h; simp [alookup, msetKey]
      · simp [alookup, msetKey, h, Ne.symm h]
  | cons kv rest ih =>
      obtain ⟨k0, v0⟩ := kv
      by_cases h0k : k0 = k
      · subst h0k
        by_cases hjk : j = k0
        · subst hjk; simp [alookup, msetKey]
        · simp [alookup, msetKey, hjk, Ne.symm hjk]
      · by_cases hj0 : j = k0
        · subst hj0
          simp [alookup, msetKey, h0k, fun h : j = k => h0k h]
        · simp [alookup, msetKey, h0k, hj0, Ne.symm hj0, ih]

theorem alookup_eq_none_of_not_mem_keys {κ α : Type} [DecidableEq κ]
    (l : List (κ × α)) (j : κ) (h : j ∉ l.map Prod.fst) : alookup l j = none := by
  induction l with
  | nil => rfl
  | cons kv rest ih =>
      obtain ⟨k, v⟩ := kv
      simp only [List.map_cons, List.mem_cons] at h
      push_neg at h
      simp [alookup, Ne.symm h.1, ih h.2]

theorem alookup_dictUpdate (base patch : List (String × String))
    (hnd : (patch.map Prod.fst).Nodup) (j : String) :
    alookup (dictUpdate base patch) j =
      match alookup patch j with
      | some v => some v
      | none => alookup base j := by
  induction patch generalizing base with
  | nil => simp [dictUpdate, alookup]
  | cons kv rest ih =>
      obtain ⟨k, v⟩ := kv
      simp only [List.map_cons, List.nodup_cons] at hnd
      have hupd : dictUpdate base ((k, v) :: rest) = dictUpdate (msetKey base k v) rest := rfl
      rw [hupd, ih _ hnd.2]
      by_cases hj : j = k
      · subst hj
        have hrest : alookup rest j = none :=
          alookup_eq_none_of_not_mem_keys rest j hnd.1
        simp [alookup, hrest, alookup_msetKey]
      · simp [alookup, Ne.symm hj, alookup_msetKey, hj]

theorem foldl_aremoveKey {κ α : Type} [DecidableEq κ]
    (ids : List κ) (l : List (κ × α)) :
    ids.foldl (fun reg k => aremoveKey reg k) l
      = l.filter (fun kv => decide (kv.1 ∉ ids)) := by
  induction ids generalizing l with
  | nil => simp
  | cons i rest ih =>
      rw [List.foldl_cons, ih]
      rw [show aremoveKey l i = l.filter (fun kv => decide (kv.1 ≠ i)) from rfl]
      rw [List.filter_filter]
      refine List.filter_congr ?_
      intro kv _
      by_cases h1 : kv.1 = i <;> by_cases h2 : kv.1 ∈ rest <;> simp [h1, h2]

theorem mem_of_alookup_eq_some {κ α : Type} [DecidableEq κ]
    {l : List (κ × α)} {k : κ} {t : α} (h : alookup l k = some t) : (k, t) ∈ l := by
  induction l with
  | nil => simp [alookup] at h
  | cons kv rest ih =>
      obtain ⟨k0, v0⟩ := kv
      by_cases hk : k0 = k
      · subst hk
        simp [alookup] at h
        simp [h]
      · simp [alookup, hk] at h
        simp [ih h]

theorem alookup_unique_of_nodup {κ α : Type} [DecidableEq κ]
    {l : List (κ × α)} (hnd : (l.map Prod.fst).Nodup)
    {k : κ} {a b : α} (ha : (k, a) ∈ l) (hb : (k, b) ∈ l) : a = b := by
  induction l with
  | nil => simp at ha
  | cons kv rest ih =>
      obtain ⟨k0, v0⟩ := kv
      simp only [List.map_cons, List.nodup_cons] at hnd
      rcases List.mem_cons.mp ha with h1 | h1 <;>
        rcases List.mem_cons.mp hb with h2 | h2
      · injection h1 with ha1 ha2
        injection h2 with hb1 hb2
        rw [ha2, hb2]
      · injection h1 with ha1 ha2
        exact absurd (ha1 ▸ List.mem_map_of_mem Prod.fst h2) hnd.1
      · injection h2 with hb1 hb2
        exact absurd (hb1 ▸ List.mem_map_of_mem Prod.fst h1) hnd.1
      · exact ih hnd.2 h1 h2

theorem alookup_filter_key {κ α : Type} [DecidableEq κ]
    (p : κ → Bool) (l : List (κ × α)) (j : κ) :
    alookup (l.filter (fun kv => p kv.1)) j =
      if p j then alookup l j else none := by
  induction l with
  | nil => by_cases h : p j <;> simp [alookup, h]
  | cons kv rest ih =>
      obtain ⟨k, v⟩ := kv
      by_cases hkj : k = j
      · subst hkj
        by_cases hp : p k <;> simp [alookup, List.filter_cons, hp, ih]
      · by_cases hp : p k <;>
          simp [alookup, List.filter_cons, hp, hkj, ih]

/-! Characterizations of each scheduler operation's effect on the registry. -/

theorem statusOf_submitF (s : QueueState) (nm : String) (w : WorkUnit) (pr : Nat)
    (ow : Option String) (md : List (String × String)) (j : Nat) :
    statusOf (submitF s nm w pr ow md).1 j =
      if j = s.nextId then some .pending else statusOf s j := by
  by_cases h : j = s.nextId
  · subst h; simp [statusOf, submitF, alookup]
  · simp [statusOf, submitF, alookup, h, Ne.symm h]

theorem tasks_runEnqueueF (s : QueueState) (i : Nat) (rest : List Nat) :
    (runEnqueueF s i rest).tasks = s.tasks := by
  cases hq : s.queue <;> simp [runEnqueueF, hq]

theorem statusOf_runEnqueueF (s : QueueState) (i : Nat) (rest : List Nat) (j : Nat) :
    statusOf (runEnqueueF s i rest) j = statusOf s j := by
  simp [statusOf, tasks_runEnqueueF]

theorem tasks_startF (s : QueueState) : (startF s).tasks = s.tasks := by
  by_cases h : s.running <;> simp [startF, h]

theorem statusOf_startF (s : QueueState) (j : Nat) :
    statusOf (startF s) j = statusOf s j := by
  simp [statusOf, tasks_startF]

theorem statusOf_stopF (s : QueueState) (j : Nat) :
    statusOf (stopF s) j = statusOf s j := rfl

theorem statusOf_onCompleteF (s : QueueState) (i c : Nat) (j : Nat) :
    statusOf (onCompleteF s i c) j = statusOf s j := rfl

theorem cancelF_eq_of_none (s : QueueState) (id : Nat)
    (h : alookup s.tasks id = none) : cancelF s id = (s, false) := by
  simp [cancelF, h]

theorem cancelF_eq_of_nonpending (s : QueueState) (id : Nat) (t : Task)
    (h : alookup s.tasks id = some t) (hp : t.status ≠ .pending) :
    cancelF s id = (s, false) := by
  simp [cancelF, h, hp]

theorem cancelF_eq_of_pending (s : QueueState) (id : Nat) (t : Task)
    (h : alookup s.tasks id = some t) (hp : t.status = .pending) :
    cancelF s id =
      ({ s with tasks := aset (fun u => { u with status := .cancelled }) s.tasks id },
       true) := by
  simp [cancelF, h, hp]

theorem statusOf_cancelF (s : QueueState) (id j : Nat) :
    statusOf (cancelF s id).1 j =
      if j = id ∧ statusOf s id = some .pending then some .cancelled
      else statusOf s j := by
  cases h : alookup s.tasks id with
  | none =>
      have hc : ¬(j = id ∧ statusOf s id = some TaskStatus.pending) := by
        rintro ⟨-, hp⟩
        rw [statusOf, h] at hp
        simp at hp
      rw [cancelF_eq_of_none s id h, if_neg hc]
  | some t =>
      by_cases hp : t.status = .pending
      · rw [cancelF_eq_of_pending s id t h hp]
        have hst : statusOf s id = some TaskStatus.pending := by
          rw [statusOf, h]
          simp [hp]
        by_cases hj : j = id
        · subst hj
          rw [if_pos ⟨rfl, hst⟩]
          simp [statusOf, alookup_aset, h]
        · rw [if_neg (by rintro ⟨hj2, -⟩; exact hj hj2)]
          simp [statusOf, alookup_aset, hj]
      · rw [cancelF_eq_of_nonpending s id t h hp]
        have hc : ¬(j = id ∧ statusOf s id = some TaskStatus.pending) := by
          rintro ⟨-, hpp⟩
          rw [statusOf, h] at hpp
          simp at hpp
          exact hp hpp
        rw [if_neg hc]

theorem statusOf_updateProgressF (s : QueueState) (id : Nat) (v : Int)
    (md : List (String × String)) (j : Nat) :
    statusOf (updateProgressF s id v md) j = statusOf s j := by
  unfold updateProgressF
  cases h : alookup s.tasks id with
  | none => rfl
  | some t =>
      by_cases hj : j = id
      · subst hj; simp [statusOf, alookup_aset, h]
      · simp [statusOf, alookup_aset, hj]

theorem dispatchBeginF_none (s : QueueState) (i : Nat) (rest : List Nat)
    (h : alookup s.tasks i = none) :
    dispatchBeginF s i rest = { s with queue := some rest } := by
  simp [dispatchBeginF, h]

theorem dispatchBeginF_cancelled (s : QueueState) (i : Nat) (rest : List Nat)
    (t : Task) (h : alookup s.tasks i = some t) (hc : t.status = .cancelled) :
    dispatchBeginF s i rest = { s with queue := some rest } := by
  simp [dispatchBeginF, h, hc]

theorem dispatchBeginF_run (s : QueueState) (i : Nat) (rest : List Nat)
    (t : Task) (h : alookup s.tasks i = some t) (hc : t.status ≠ .cancelled) :
    dispatchBeginF s i rest =
      { s with queue := some rest,
               tasks := aset (fun u =>
                 { u with status := .running, started_at := some s.clock }) s.tasks i,
               execs := s.execs ++ [i] } := by
  simp [dispatchBeginF, h, hc]

theorem statusOf_dispatchBeginF_other (s : QueueState) (i : Nat) (rest : List Nat)
    (j : Nat) (hj : j ≠ i) :
    statusOf (dispatchBeginF s i rest) j = statusOf s j := by
  unfold dispatchBeginF
  cases h : alookup s.tasks i with
  | none => rfl
  | some t =>
      by_cases hc : t.status = .cancelled
      · simp [hc, statusOf]
      · simp [hc, statusOf, alookup_aset, hj]

theorem runTaskBody_status (t : Task) (now : Nat) :
    (runTaskBody t now).1.status = .completed ∨
    (runTaskBody t now).1.status = .failed ∨
    (runTaskBody t now).1.status = t.status := by
  cases h : callWork t.func <;> simp [runTaskBody, h]

theorem runTaskBody_completed_at (t : Task) (now : Nat) :
    (runTaskBody t now).1.completed_at = some now := by
  cases h : callWork t.func <;> simp [runTaskBody, h]

theorem dispatchFinishF_none (s : QueueState) (i : Nat)
    (h : alookup s.tasks i = none) :
    dispatchFinishF s i = { s with execs := s.execs.erase i } := by
  simp [dispatchFinishF, h]

theorem dispatchFinishF_some (s : QueueState) (i : Nat) (t : Task)
    (h : alookup s.tasks i = some t) :
    dispatchFinishF s i =
      { s with tasks := aset (fun _ => (runTaskBody t s.clock).1) s.tasks i,
               execs := s.execs.erase i,
               callbacks := aremoveKey s.callbacks i,
               fired := s.fired ++ ((alookup s.callbacks i).getD []).map
                 (fun c => (i, c, (runTaskBody t s.clock).1)),
               invoked := if t.func.acceptsTaskKw then s.invoked ++ [i]
                          else s.invoked } := by
  simp [dispatchFinishF, h]

theorem statusOf_dispatchFinishF_other (s : QueueState) (i j : Nat) (hj : j ≠ i) :
    statusOf (dispatchFinishF s i) j = statusOf s j := by
  unfold dispatchFinishF
  cases h : alookup s.tasks i with
  | none => rfl
  | some t => simp [statusOf, alookup_aset, hj]

theorem mem_collectRemovable (clock maxAge : Nat) (l : List (Nat × Task)) (k : Nat) :
    k ∈ collectRemovable clock maxAge l ↔
      ∃ t, (k, t) ∈ l ∧ removableTask clock maxAge t = true := by
  induction l with
  | nil => simp [collectRemovable]
  | cons kv rest ih =>
      obtain ⟨k0, t0⟩ := kv
      by_cases hr : removableTask clock maxAge t0 = true
      · rw [show collectRemovable clock maxAge ((k0, t0) :: rest)
            = k0 :: collectRemovable clock maxAge rest by
              simp [collectRemovable, hr]]
        constructor
        · intro h
          rcases List.mem_cons.mp h with h | h
          · exact ⟨t0, List.mem_cons.mpr (Or.inl (by rw [h])), hr⟩
          · rcases ih.mp h with ⟨t, ht, hrt⟩
            exact ⟨t, List.mem_cons_of_mem _ ht, hrt⟩
        · rintro ⟨t, ht, hrt⟩
          rcases List.mem_cons.mp ht with h | h
          · injection h with h1 h2
            exact List.mem_cons.mpr (Or.inl h1)
          · exact List.mem_cons_of_mem _ (ih.mpr ⟨t, h, hrt⟩)
      · rw [show collectRemovable clock maxAge ((k0, t0) :: rest)
            = collectRemovable clock maxAge rest by
              simp [collectRemovable, hr]]
        rw [ih]
        constructor
        · rintro ⟨t, ht, hrt⟩
          exact ⟨t, List.mem_cons_of_mem _ ht, hrt⟩
        · rintro ⟨t, ht, hrt⟩
          rcases List.mem_cons.mp ht with h | h
          · injection h with h1 h2
            rw [h2] at hrt
            exact absurd hrt hr
          · exact ⟨t, h, hrt⟩

theorem cleanupF_tasks_eq_filter (s : QueueState) (maxAge : Nat) :
    (cleanupF s maxAge).1.tasks =
      s.tasks.filter (fun kv =>
        decide (kv.1 ∉ collectRemovable s.clock maxAge s.tasks)) := by
  simp [cleanupF, foldl_aremoveKey]

theorem alookup_cleanupF (s : QueueState) (maxAge : Nat) (j : Nat)
    (hnd : (s.tasks.map Prod.fst).Nodup) :
    alookup (cleanupF s maxAge).1.tasks j =
      match alookup s.tasks j with
      | some t => if removableTask s.clock maxAge t then none else some t
      | none => none := by
  rw [cleanupF_tasks_eq_filter,
      alookup_filter_key (fun k => decide (k ∉ collectRemovable s.clock maxAge s.tasks))]
  cases h : alookup s.tasks j with
  | none => by_cases hp : j ∈ collectRemovable s.clock maxAge s.tasks <;> simp [hp, h]
  | some t =>
      have hmem := mem_of_alookup_eq_some h
      by_cases hr : removableTask s.clock maxAge t = true
      · have : j ∈ collectRemovable s.clock maxAge s.tasks :=
          (mem_collectRemovable _ _ _ _).mpr ⟨t, hmem, hr⟩
        simp [this, hr]
      · have : j ∉ collectRemovable s.clock maxAge s.tasks := by
          intro hin
          rcases (mem_collectRemovable _ _ _ _).mp hin with ⟨t2, ht2, hrt2⟩
          have : t2 = t := by
            have h1 := List.mem_map_of_mem Prod.fst ht2
            have h2 := List.mem_map_of_mem Prod.fst hmem
            have := alookup_unique_of_nodup hnd ht2 hmem
            exact this
          rw [this] at hrt2
          exact hr hrt2
        simp [this, h, hr]

theorem statusOf_cleanupF_not_removed (s : QueueState) (maxAge : Nat) (j : Nat)
    (hnd : (s.tasks.map Prod.fst).Nodup) (t : Task)
    (h : alookup s.tasks j = some t)
    (hr : removableTask s.clock maxAge t = false) :
    statusOf (cleanupF s maxAge).1 j = statusOf s j := by
  simp [statusOf, alookup_cleanupF s maxAge j hnd, h, hr]

theorem keys_aset {κ α : Type} [DecidableEq κ] (f : α → α)
    (l : List (κ × α)) (q : κ) :
    (aset f l q).map Prod.fst = l.map Prod.fst := by
  induction l with
  | nil => rfl
  | cons kv rest ih =>
      obtain ⟨k, v⟩ := kv
      by_cases h : k = q <;> simp [aset, h, ih]

theorem mem_keys_of_alookup {κ α : Type} [DecidableEq κ]
    {l : List (κ × α)} {k : κ} {t : α} (h : alookup l k = some t) :
    k ∈ l.map Prod.fst :=
  List.mem_map_of_mem Prod.fst (mem_of_alookup_eq_some h)

theorem statusOf_eq_some_status {s : QueueState} {i : Nat} {t : Task}
    (h : alookup s.tasks i = some t) : statusOf s i = some t.status := by
  rw [statusOf, h]; rfl

theorem alookup_eq_some_of_statusOf {s : QueueState} {i : Nat} {st : TaskStatus}
    (h : statusOf s i = some st) : ∃ t, alookup s.tasks i = some t ∧ t.status = st := by
  rw [statusOf] at h
  cases ht : alookup s.tasks i with
  | none => rw [ht] at h; simp at h
  | some t =>
      rw [ht] at h
      simp at h
      exact ⟨t, rfl, h⟩

/-! The inductive invariant maintained by every scheduler transition. -/

/-- Reachability invariant of the scheduler state: registry keys are unique
generated ids bounded by the id counter; every id is held at most once across
the queue, the deferred enqueues and the workers; queued ids are never RUNNING
or already finished; claimed ids are RUNNING; tasks that never ran have no
completion timestamp and no invocation record. -/
structure Inv (s : QueueState) : Prop where
  keysNodup : (s.tasks.map Prod.fst).Nodup
  keysLt : ∀ k ∈ s.tasks.map Prod.fst, k < s.nextId
  idsNodup : (allIds s).Nodup
  idsLt : ∀ i ∈ allIds s, i < s.nextId
  queuedStatus : ∀ i ∈ queueIds s ++ s.pendingEnqueues,
      statusOf s i = some .pending ∨ statusOf s i = some .cancelled ∨
      statusOf s i = none
  execStatus : ∀ i ∈ s.execs, statusOf s i = some .running
  pcNoCompleted : ∀ i t, alookup s.tasks i = some t →
      (t.status = .pending ∨ t.status = .cancelled) → t.completed_at = none
  pcNotInvoked : ∀ i, (statusOf s i = some .pending ∨ statusOf s i = some .cancelled) →
      i ∉ s.invoked
  invokedLt : ∀ i ∈ s.invoked, i < s.nextId

theorem inv_initState : Inv initState := by
  constructor <;> simp [initState, allIds, queueIds, statusOf, alookup]

theorem statusOf_set_preserving {s : QueueState} {f : Task → Task} {q : Nat}
    (hf : ∀ t, (f t).status = t.status) (j : Nat) :
    statusOf { s with tasks := aset f s.tasks q } j = statusOf s j := by
  by_cases hj : j = q
  · subst hj
    show (alookup (aset f s.tasks j) j).map Task.status = _
    rw [alookup_aset]
    simp only [if_pos rfl]
    cases h0 : alookup s.tasks j <;> simp [statusOf, h0, hf]
  · show (alookup (aset f s.tasks q) j).map Task.status = _
    rw [alookup_aset, if_neg hj]
    rfl

theorem inv_aset_preserving (s : QueueState) (f : Task → Task) (q : Nat)
    (hst : ∀ t, (f t).status = t.status)
    (hca : ∀ t, (f t).completed_at = t.completed_at)
    (hI : Inv s) : Inv { s with tasks := aset f s.tasks q } := by
  have hso := @statusOf_set_preserving s f q hst
  constructor
  · show ((aset f s.tasks q).map Prod.fst).Nodup
    rw [keys_aset]; exact hI.keysNodup
  · intro k hk
    rw [show ((aset f s.tasks q).map Prod.fst) = s.tasks.map Prod.fst
        from keys_aset f s.tasks q] at hk
    exact hI.keysLt k hk
  · exact hI.idsNodup
  · exact hI.idsLt
  · intro i hi
    rw [hso]
    exact hI.queuedStatus i hi
  · intro i hi
    rw [hso]
    exact hI.execStatus i hi
  · intro i t hl hpc
    by_cases hi : i = q
    · subst hi
      rw [alookup_aset, if_pos rfl] at hl
      cases h0 : alookup s.tasks i with
      | none => rw [h0] at hl; simp at hl
      | some t0 =>
          rw [h0] at hl
          simp at hl
          subst hl
          rw [hca]
          exact hI.pcNoCompleted i t0 h0 (by rw [hst] at hpc; exact hpc)
    · rw [alookup_aset, if_neg hi] at hl
      exact hI.pcNoCompleted i t hl hpc
  · intro i hi
    rw [hso] at hi
    exact hI.pcNotInvoked i hi
  · exact hI.invokedLt

theorem inv_stopF (s : QueueState) (hI : Inv s) : Inv (stopF s) :=
  ⟨hI.keysNodup, hI.keysLt, hI.idsNodup, hI.idsLt, hI.queuedStatus,
   hI.execStatus, hI.pcNoCompleted, hI.pcNotInvoked, hI.invokedLt⟩

theorem inv_onCompleteF (s : QueueState) (i c : Nat) (hI : Inv s) :
    Inv (onCompleteF s i c) :=
  ⟨hI.keysNodup, hI.keysLt, hI.idsNodup, hI.idsLt, hI.queuedStatus,
   hI.execStatus, hI.pcNoCompleted, hI.pcNotInvoked, hI.invokedLt⟩

theorem inv_tick (s : QueueState) (d : Nat) (hI : Inv s) :
    Inv { s with clock := s.clock + d } :=
  ⟨hI.keysNodup, hI.keysLt, hI.idsNodup, hI.idsLt, hI.queuedStatus,
   hI.execStatus, hI.pcNoCompleted, hI.pcNotInvoked, hI.invokedLt⟩

theorem updateProgressF_eq_of_none (s : QueueState) (id : Nat) (v : Int)
    (md : List (String × String)) (h : alookup s.tasks id = none) :
    updateProgressF s id v md = s := by
  simp [updateProgressF, h]

theorem updateProgressF_eq_of_some (s : QueueState) (id : Nat) (v : Int)
    (md : List (String × String)) (t0 : Task) (h : alookup s.tasks id = some t0) :
    updateProgressF s id v md =
      { s with tasks := aset (fun t =>
          { t with progress := clampProgress v,
                   metadata := if md.isEmpty then t.metadata
                               else dictUpdate t.metadata md }) s.tasks id } := by
  simp [updateProgressF, h]

theorem inv_updateProgressF (s : QueueState) (id : Nat) (v : Int)
    (md : List (String × String)) (hI : Inv s) : Inv (updateProgressF s id v md) := by
  cases h : alookup s.tasks id with
  | none => rw [updateProgressF_eq_of_none s id v md h]; exact hI
  | some t0 =>
      rw [updateProgressF_eq_of_some s id v md t0 h]
      exact inv_aset_preserving s _ id (fun t => rfl) (fun t => rfl) hI

theorem inv_submitF (s : QueueState) (nm : String) (w : WorkUnit) (pr : Nat)
    (ow : Option String) (md : List (String × String)) (hI : Inv s) :
    Inv (submitF s nm w pr ow md).1 := by
  have hfk : s.nextId ∉ s.tasks.map Prod.fst :=
    fun h => lt_irrefl s.nextId (hI.keysLt s.nextId h)
  have hfi : s.nextId ∉ allIds s :=
    fun h => lt_irrefl s.nextId (hI.idsLt s.nextId h)
  have hfv : s.nextId ∉ s.invoked :=
    fun h => lt_irrefl s.nextId (hI.invokedLt s.nextId h)
  have hperm : allIds (submitF s nm w pr ow md).1 = (queueIds s ++ s.pendingEnqueues) ++ s.nextId :: s.execs := by
    show queueIds s ++ (s.pendingEnqueues ++ [s.nextId]) ++ s.execs = _
    simp [List.append_assoc]
  have hperm2 : List.Perm ((queueIds s ++ s.pendingEnqueues) ++ s.nextId :: s.execs)
      (s.nextId :: allIds s) := by
    have h1 : List.Perm ((queueIds s ++ s.pendingEnqueues) ++ s.nextId :: s.execs)
        (s.nextId :: ((queueIds s ++ s.pendingEnqueues) ++ s.execs)) :=
      List.perm_middle
    refine h1.trans ?_
    rw [allIds, List.append_assoc]
  have hmem : ∀ i, i ∈ allIds (submitF s nm w pr ow md).1 ↔
      i = s.nextId ∨ i ∈ allIds s := by
    intro i
    rw [hperm]
    rw [hperm2.mem_iff]
    simp
  constructor
  · show ((s.nextId, _) :: s.tasks |>.map Prod.fst).Nodup
    simp only [List.map_cons, List.nodup_cons]
    exact ⟨hfk, hI.keysNodup⟩
  · intro k hk
    show k < s.nextId + 1
    have hk2 : k = s.nextId ∨ k ∈ s.tasks.map Prod.fst := by
      simpa [submitF] using hk
    cases hk2 with
    | inl h2 => omega
    | inr h2 =>
        have := hI.keysLt k h2
        omega
  · rw [hperm]
    exact hperm2.nodup_iff.mpr (List.nodup_cons.mpr ⟨hfi, hI.idsNodup⟩)
  · intro i hi
    rw [hmem i] at hi
    show i < s.nextId + 1
    rcases hi with h | h
    · omega
    · have := hI.idsLt i h
      omega
  · intro i hi
    rw [statusOf_submitF]
    by_cases hn : i = s.nextId
    · simp [hn]
    · rw [if_neg hn]
      refine hI.queuedStatus i ?_
      show i ∈ queueIds s ++ s.pendingEnqueues
      have : i ∈ queueIds s ++ (s.pendingEnqueues ++ [s.nextId]) := hi
      simp only [List.mem_append, List.mem_singleton] at this ⊢
      rcases this with h | h | h
      · exact Or.inl h
      · exact Or.inr h
      · exact absurd h hn
  · intro i hi
    have hi2 : i ∈ s.execs := hi
    rw [statusOf_submitF]
    have hin : i ∈ allIds s := by
      rw [allIds]
      simp only [List.mem_append]
      exact Or.inr hi2
    have hn : i ≠ s.nextId := fun h2 => hfi (h2 ▸ hin)
    rw [if_neg hn]
    exact hI.execStatus i hi2
  · intro i t hl hpc
    by_cases hn : s.nextId = i
    · subst hn
      rw [show alookup (submitF s nm w pr ow md).1.tasks s.nextId
          = some { id := s.nextId, name := nm, func := w, priority := pr,
                   user_id := ow, metadata := md, created_at := s.clock }
          from by simp [submitF, alookup]] at hl
      injection hl with hl
      rw [← hl]
    · have : alookup (submitF s nm w pr ow md).1.tasks i = alookup s.tasks i := by
        simp [submitF, alookup, hn]
      rw [this] at hl
      exact hI.pcNoCompleted i t hl hpc
  · intro i hi
    show i ∉ s.invoked
    rw [statusOf_submitF] at hi
    by_cases hn : i = s.nextId
    · exact hn ▸ hfv
    · rw [if_neg hn] at hi
      exact hI.pcNotInvoked i hi
  · intro i hi
    have := hI.invokedLt i hi
    show i < s.nextId + 1
    omega

theorem inv_runEnqueueF (s : QueueState) (i : Nat) (rest : List Nat)
    (hpe : s.pendingEnqueues = i :: rest) (hI : Inv s) :
    Inv (runEnqueueF s i rest) := by
  cases hq : s.queue with
  | some q =>
      have hs' : runEnqueueF s i rest =
          { s with queue := some (q ++ [i]), pendingEnqueues := rest } := by
        simp [runEnqueueF, hq]
      rw [hs']
      have hids : allIds { s with queue := some (q ++ [i]), pendingEnqueues := rest }
          = allIds s := by
        simp [allIds, queueIds, hq, hpe, List.append_assoc]
      have hqm : ∀ j, j ∈ (q ++ [i]) ++ rest ↔ j ∈ queueIds s ++ s.pendingEnqueues := by
        intro j
        simp [queueIds, hq, hpe, List.mem_append, List.mem_cons]
      constructor
      · exact hI.keysNodup
      · exact hI.keysLt
      · rw [hids]; exact hI.idsNodup
      · rw [hids]; exact hI.idsLt
      · intro j hj
        refine hI.queuedStatus j ?_
        exact (hqm j).mp hj
      · exact hI.execStatus
      · exact hI.pcNoCompleted
      · exact hI.pcNotInvoked
      · exact hI.invokedLt
  | none =>
      have hs' : runEnqueueF s i rest = { s with pendingEnqueues := rest } := by
        simp [runEnqueueF, hq]
      rw [hs']
      have hsub : List.Sublist (allIds { s with pendingEnqueues := rest }) (allIds s) := by
        simp only [allIds, queueIds, hq, hpe]
        show List.Sublist (Option.getD none [] ++ rest ++ s.execs)
          (Option.getD none [] ++ (i :: rest) ++ s.execs)
        simp only [Option.getD, List.nil_append]
        exact List.Sublist.append_right (List.sublist_cons_self i rest) s.execs
      constructor
      · exact hI.keysNodup
      · exact hI.keysLt
      · exact hI.idsNodup.sublist hsub
      · intro j hj
        exact hI.idsLt j (hsub.mem hj)
      · intro j hj
        refine hI.queuedStatus j ?_
        show j ∈ queueIds s ++ s.pendingEnqueues
        simp only [queueIds, hq, hpe, Option.getD, List.nil_append] at hj ⊢
        exact List.mem_cons_of_mem i hj
      · exact hI.execStatus
      · exact hI.pcNoCompleted
      · exact hI.pcNotInvoked
      · exact hI.invokedLt

theorem inv_startF (s : QueueState) (hI : Inv s) : Inv (startF s) := by
  by_cases hr : s.running
  · rw [show startF s = s by simp [startF, hr]]
    exact hI
  · rw [show startF s = { s with running := true, queue := some [] } by
      simp [startF, hr]]
    have hsub : List.Sublist (allIds { s with running := true, queue := some [] })
        (allIds s) := by
      show List.Sublist ([] ++ s.pendingEnqueues ++ s.execs)
        (queueIds s ++ s.pendingEnqueues ++ s.execs)
      simp only [List.nil_append, List.append_assoc]
      exact List.sublist_append_right (queueIds s) (s.pendingEnqueues ++ s.execs)
    constructor
    · exact hI.keysNodup
    · exact hI.keysLt
    · exact hI.idsNodup.sublist hsub
    · intro j hj
      exact hI.idsLt j (hsub.mem hj)
    · intro j hj
      refine hI.queuedStatus j ?_
      show j ∈ queueIds s ++ s.pendingEnqueues
      simp only [queueIds, Option.getD, List.nil_append] at hj
      simp only [List.mem_append]
      exact Or.inr hj
    · exact hI.execStatus
    · exact hI.pcNoCompleted
    · exact hI.pcNotInvoked
    · exact hI.invokedLt

theorem inv_cancelF (s : QueueState) (id : Nat) (hI : Inv s) :
    Inv (cancelF s id).1 := by
  cases h : alookup s.tasks id with
  | none => rw [cancelF_eq_of_none s id h]; exact hI
  | some t =>
      by_cases hp : t.status = .pending
      · rw [cancelF_eq_of_pending s id t h hp]
        have hso : ∀ j, statusOf { s with tasks := aset (fun u => { u with status := TaskStatus.cancelled }) s.tasks id } j = if j = id then some TaskStatus.cancelled else statusOf s j := by
          intro j
          by_cases hj : j = id
          · subst hj
            show (alookup (aset _ s.tasks j) j).map Task.status = _
            rw [alookup_aset, if_pos rfl, if_pos rfl, h]
            rfl
          · show (alookup (aset _ s.tasks id) j).map Task.status = _
            rw [alookup_aset, if_neg hj, if_neg hj]
            rfl
        constructor
        · show ((aset _ s.tasks id).map Prod.fst).Nodup
          rw [keys_aset]; exact hI.keysNodup
        · intro k hk
          rw [show ((aset (fun u => { u with status := TaskStatus.cancelled })
              s.tasks id).map Prod.fst) = s.tasks.map Prod.fst
              from keys_aset _ s.tasks id] at hk
          exact hI.keysLt k hk
        · exact hI.idsNodup
        · exact hI.idsLt
        · intro j hj
          rw [hso]
          by_cases hjid : j = id
          · simp [hjid]
          · rw [if_neg hjid]
            exact hI.queuedStatus j hj
        · intro j hj
          rw [hso]
          have hrun := hI.execStatus j hj
          have hjid : j ≠ id := by
            intro he
            rw [he, statusOf_eq_some_status h, hp] at hrun
            exact TaskStatus.noConfusion (Option.some.inj hrun)
          rw [if_neg hjid]
          exact hrun
        · intro j u hl hpc
          by_cases hj : j = id
          · subst hj
            rw [alookup_aset, if_pos rfl, h] at hl
            simp at hl
            rw [← hl]
            show t.completed_at = none
            exact hI.pcNoCompleted j t h (Or.inl hp)
          · rw [alookup_aset, if_neg hj] at hl
            exact hI.pcNoCompleted j u hl hpc
        · intro j hj
          show j ∉ s.invoked
          rw [hso] at hj
          by_cases hjid : j = id
          · subst hjid
            refine hI.pcNotInvoked j ?_
            rw [statusOf_eq_some_status h, hp]
            exact Or.inl rfl
          · rw [if_neg hjid] at hj
            exact hI.pcNotInvoked j hj
        · exact hI.invokedLt
      · rw [cancelF_eq_of_nonpending s id t h hp]
        exact hI

theorem exec_task_running {s : QueueState} (hI : Inv s) {i : Nat} (h : i ∈ s.execs) :
    ∃ t, alookup s.tasks i = some t ∧ t.status = .running :=
  alookup_eq_some_of_statusOf (hI.execStatus i h)

theorem inv_queue_tail (s : QueueState) (i : Nat) (rest : List Nat)
    (hq : s.queue = some (i :: rest)) (hI : Inv s) :
    Inv { s with queue := some rest } := by
  have hall : allIds s = i :: allIds { s with queue := some rest } := by
    simp [allIds, queueIds, hq]
  constructor
  · exact hI.keysNodup
  · exact hI.keysLt
  · have h2 := hI.idsNodup
    rw [hall] at h2
    exact h2.of_cons
  · intro j hj
    refine hI.idsLt j ?_
    rw [hall]
    exact List.mem_cons_of_mem i hj
  · intro j hj
    refine hI.queuedStatus j ?_
    show j ∈ queueIds s ++ s.pendingEnqueues
    have h2 : j ∈ rest ++ s.pendingEnqueues := hj
    simp only [queueIds, hq, Option.getD_some]
    rcases List.mem_append.mp h2 with h3 | h3
    · exact List.mem_append.mpr (Or.inl (List.mem_cons_of_mem i h3))
    · exact List.mem_append.mpr (Or.inr h3)
  · exact hI.execStatus
  · exact hI.pcNoCompleted
  · exact hI.pcNotInvoked
  · exact hI.invokedLt

theorem inv_dispatchBeginF (s : QueueState) (i : Nat) (rest : List Nat)
    (hq : s.queue = some (i :: rest)) (hI : Inv s) :
    Inv (dispatchBeginF s i rest) := by
  cases ht : alookup s.tasks i with
  | none =>
      rw [dispatchBeginF_none s i rest ht]
      exact inv_queue_tail s i rest hq hI
  | some t =>
      by_cases hc : t.status = .cancelled
      · rw [dispatchBeginF_cancelled s i rest t ht hc]
        exact inv_queue_tail s i rest hq hI
      · rw [dispatchBeginF_run s i rest t ht hc]
        have hall : allIds s = i :: (rest ++ s.pendingEnqueues ++ s.execs) := by
          simp [allIds, queueIds, hq]
        have hifresh : i ∉ rest ++ s.pendingEnqueues ++ s.execs := by
          have h2 := hI.idsNodup
          rw [hall] at h2
          exact (List.nodup_cons.mp h2).1
        have hso : ∀ j, statusOf { s with queue := some rest, tasks := aset (fun u => { u with status := TaskStatus.running, started_at := some s.clock }) s.tasks i, execs := s.execs ++ [i] } j = if j = i then some TaskStatus.running else statusOf s j := by
          intro j
          by_cases hj : j = i
          · subst hj
            show (alookup (aset _ s.tasks j) j).map Task.status = _
            rw [alookup_aset, if_pos rfl, if_pos rfl, ht]
            rfl
          · show (alookup (aset _ s.tasks i) j).map Task.status = _
            rw [alookup_aset, if_neg hj, if_neg hj]
            rfl
        have hperm : List.Perm (rest ++ s.pendingEnqueues ++ (s.execs ++ [i]))
            (i :: (rest ++ s.pendingEnqueues ++ s.execs)) := by
          have h1 : rest ++ s.pendingEnqueues ++ (s.execs ++ [i])
              = (rest ++ s.pendingEnqueues ++ s.execs) ++ [i] := by
            simp [List.append_assoc]
          rw [h1]
          exact List.perm_append_singleton i _
        constructor
        · show ((aset _ s.tasks i).map Prod.fst).Nodup
          rw [keys_aset]
          exact hI.keysNodup
        · intro k hk
          rw [show ((aset (fun u => { u with status := TaskStatus.running, started_at := some s.clock }) s.tasks i).map Prod.fst) = s.tasks.map Prod.fst from keys_aset _ s.tasks i] at hk
          exact hI.keysLt k hk
        · show (rest ++ s.pendingEnqueues ++ (s.execs ++ [i])).Nodup
          rw [hperm.nodup_iff]
          rw [List.nodup_cons]
          refine ⟨hifresh, ?_⟩
          have h2 := hI.idsNodup
          rw [hall] at h2
          exact h2.of_cons
        · intro j hj
          have hj2 : j ∈ rest ++ s.pendingEnqueues ++ (s.execs ++ [i]) := hj
          rw [hperm.mem_iff] at hj2
          refine hI.idsLt j ?_
          rw [hall]
          rcases List.mem_cons.mp hj2 with h2 | h2
          · exact h2 ▸ List.mem_cons_self i _
          · exact List.mem_cons_of_mem i h2
        · intro j hj
          have hj2 : j ∈ rest ++ s.pendingEnqueues := hj
          have hjne : j ≠ i := by
            intro he
            subst he
            refine hifresh ?_
            rcases List.mem_append.mp hj2 with h2 | h2
            · exact List.mem_append.mpr (Or.inl (List.mem_append.mpr (Or.inl h2)))
            · exact List.mem_append.mpr (Or.inl (List.mem_append.mpr (Or.inr h2)))
          rw [hso, if_neg hjne]
          refine hI.queuedStatus j ?_
          show j ∈ queueIds s ++ s.pendingEnqueues
          simp only [queueIds, hq, Option.getD_some]
          rcases List.mem_append.mp hj2 with h2 | h2
          · exact List.mem_append.mpr (Or.inl (List.mem_cons_of_mem i h2))
          · exact List.mem_append.mpr (Or.inr h2)
        · intro j hj
          have hj2 : j ∈ s.execs ++ [i] := hj
          rw [hso]
          rcases List.mem_append.mp hj2 with h2 | h2
          · have hjne : j ≠ i := by
              intro he
              subst he
              exact hifresh (List.mem_append.mpr (Or.inr h2))
            rw [if_neg hjne]
            exact hI.execStatus j h2
          · rw [if_pos (List.mem_singleton.mp h2)]
        · intro j u hl hpc
          by_cases hj : j = i
          · subst hj
            rw [alookup_aset, if_pos rfl, ht] at hl
            simp at hl
            rw [← hl] at hpc
            rcases hpc with h2 | h2 <;> exact TaskStatus.noConfusion h2
          · rw [alookup_aset, if_neg hj] at hl
            exact hI.pcNoCompleted j u hl hpc
        · intro j hj
          show j ∉ s.invoked
          rw [hso] at hj
          by_cases hjne : j = i
          · rw [if_pos hjne] at hj
            rcases hj with h2 | h2 <;>
              exact TaskStatus.noConfusion (Option.some.inj h2)
          · rw [if_neg hjne] at hj
            exact hI.pcNotInvoked j hj
        · exact hI.invokedLt

theorem inv_dispatchFinishF (s : QueueState) (i : Nat)
    (hmem : i ∈ s.execs) (hI : Inv s) : Inv (dispatchFinishF s i) := by
  obtain ⟨t, ht, htr⟩ := exec_task_running hI hmem
  rw [dispatchFinishF_some s i t ht]
  have hrst : (runTaskBody t s.clock).1.status = TaskStatus.completed ∨
      (runTaskBody t s.clock).1.status = TaskStatus.failed ∨
      (runTaskBody t s.clock).1.status = TaskStatus.running := by
    rcases runTaskBody_status t s.clock with h | h | h
    · exact Or.inl h
    · exact Or.inr (Or.inl h)
    · exact Or.inr (Or.inr (htr ▸ h))
  have hnotpc : ¬((runTaskBody t s.clock).1.status = TaskStatus.pending ∨
      (runTaskBody t s.clock).1.status = TaskStatus.cancelled) := by
    rintro (h2 | h2) <;>
      rcases hrst with h3 | h3 | h3 <;>
        rw [h2] at h3 <;> exact TaskStatus.noConfusion h3
  have hdisj : i ∉ queueIds s ++ s.pendingEnqueues := by
    intro hin
    have h2 := hI.idsNodup
    have := List.disjoint_of_nodup_append (by
      rw [show (queueIds s ++ s.pendingEnqueues) ++ s.execs = allIds s from rfl]
      exact h2)
    exact this hin hmem
  have hso : ∀ j, statusOf { s with tasks := aset (fun _ => (runTaskBody t s.clock).1) s.tasks i, execs := s.execs.erase i, callbacks := aremoveKey s.callbacks i, fired := s.fired ++ ((alookup s.callbacks i).getD []).map (fun c => (i, c, (runTaskBody t s.clock).1)), invoked := if t.func.acceptsTaskKw then s.invoked ++ [i] else s.invoked } j = if j = i then some (runTaskBody t s.clock).1.status else statusOf s j := by
    intro j
    by_cases hj : j = i
    · subst hj
      show (alookup (aset _ s.tasks j) j).map Task.status = _
      rw [alookup_aset, if_pos rfl, if_pos rfl, ht]
      rfl
    · show (alookup (aset _ s.tasks i) j).map Task.status = _
      rw [alookup_aset, if_neg hj, if_neg hj]
      rfl
  have hexnd : s.execs.Nodup := by
    have h2 := hI.idsNodup
    exact (List.nodup_append.mp h2).2.1
  constructor
  · show ((aset _ s.tasks i).map Prod.fst).Nodup
    rw [keys_aset]
    exact hI.keysNodup
  · intro k hk
    rw [show ((aset (fun _ => (runTaskBody t s.clock).1) s.tasks i).map Prod.fst) = s.tasks.map Prod.fst from keys_aset _ s.tasks i] at hk
    exact hI.keysLt k hk
  · show (queueIds s ++ s.pendingEnqueues ++ s.execs.erase i).Nodup
    refine List.Nodup.sublist ?_ hI.idsNodup
    exact List.Sublist.append_left (List.erase_sublist i s.execs) _
  · intro j hj
    refine hI.idsLt j ?_
    have hsub : List.Sublist (queueIds s ++ s.pendingEnqueues ++ s.execs.erase i)
        (allIds s) :=
      List.Sublist.append_left (List.erase_sublist i s.execs) _
    exact hsub.mem hj
  · intro j hj
    have hj2 : j ∈ queueIds s ++ s.pendingEnqueues := hj
    have hjne : j ≠ i := fun he => hdisj (he ▸ hj2)
    rw [hso, if_neg hjne]
    exact hI.queuedStatus j hj2
  · intro j hj
    have hj2 : j ∈ s.execs.erase i := hj
    have hjne : j ≠ i := ((List.Nodup.mem_erase_iff hexnd).mp hj2).1
    have hjmem : j ∈ s.execs := ((List.Nodup.mem_erase_iff hexnd).mp hj2).2
    rw [hso, if_neg hjne]
    exact hI.execStatus j hjmem
  · intro j u hl hpc
    by_cases hj : j = i
    · subst hj
      rw [alookup_aset, if_pos rfl, ht] at hl
      simp at hl
      rw [← hl] at hpc
      exact absurd hpc hnotpc
    · rw [alookup_aset, if_neg hj] at hl
      exact hI.pcNoCompleted j u hl hpc
  · intro j hj
    rw [hso] at hj
    by_cases hjne : j = i
    · rw [if_pos hjne] at hj
      refine absurd ?_ hnotpc
      rcases hj with h2 | h2
      · exact Or.inl (Option.some.inj h2)
      · exact Or.inr (Option.some.inj h2)
    · rw [if_neg hjne] at hj
      have hold := hI.pcNotInvoked j hj
      intro hin
      by_cases hk : t.func.acceptsTaskKw
      · rw [if_pos hk] at hin
        rcases List.mem_append.mp hin with h2 | h2
        · exact hold h2
        · exact hjne (List.mem_singleton.mp h2)
      · rw [if_neg hk] at hin
        exact hold hin
  · intro j hj
    by_cases hk : t.func.acceptsTaskKw
    · rw [if_pos hk] at hj
      rcases List.mem_append.mp hj with h2 | h2
      · exact hI.invokedLt j h2
      · have := List.mem_singleton.mp h2
        subst this
        refine hI.idsLt j ?_
        show j ∈ allIds s
        exact List.mem_append.mpr (Or.inr hmem)
    · rw [if_neg hk] at hj
      exact hI.invokedLt j hj

theorem inv_cleanupF (s : QueueState) (maxAge : Nat) (hI : Inv s) :
    Inv (cleanupF s maxAge).1 := by
  have hla := alookup_cleanupF s maxAge
  have hkeys : List.Sublist ((cleanupF s maxAge).1.tasks.map Prod.fst)
      (s.tasks.map Prod.fst) := by
    rw [cleanupF_tasks_eq_filter]
    exact List.Sublist.map Prod.fst (List.filter_sublist s.tasks)
  have hsurv : ∀ j u, alookup (cleanupF s maxAge).1.tasks j = some u →
      alookup s.tasks j = some u := by
    intro j u hl
    rw [hla j hI.keysNodup] at hl
    cases h0 : alookup s.tasks j with
    | none => rw [h0] at hl; simp at hl
    | some t =>
        rw [h0] at hl
        by_cases hr : removableTask s.clock maxAge t
        · simp [hr] at hl
        · simp [hr] at hl
          rw [hl]
  have hsoc : ∀ j, statusOf (cleanupF s maxAge).1 j = statusOf s j ∨
      statusOf (cleanupF s maxAge).1 j = none := by
    intro j
    rw [statusOf, hla j hI.keysNodup]
    cases h0 : alookup s.tasks j with
    | none => exact Or.inr rfl
    | some t =>
        by_cases hr : removableTask s.clock maxAge t
        · simp [hr]
        · simp [hr, statusOf, h0]
  constructor
  · exact hI.keysNodup.sublist hkeys
  · intro k hk
    exact hI.keysLt k (hkeys.mem hk)
  · exact hI.idsNodup
  · exact hI.idsLt
  · intro j hj
    rcases hsoc j with h2 | h2
    · rw [h2]
      exact hI.queuedStatus j hj
    · rw [h2]
      exact Or.inr (Or.inr rfl)
  · intro j hj
    obtain ⟨t, ht, htr⟩ := exec_task_running hI hj
    have hnr : removableTask s.clock maxAge t = false := by
      rw [removableTask, htr]
      rfl
    rw [statusOf, hla j hI.keysNodup, ht]
    simp [hnr, htr]
  · intro j u hl hpc
    exact hI.pcNoCompleted j u (hsurv j u hl) hpc
  · intro j hj
    refine hI.pcNotInvoked j ?_
    rcases hsoc j with h2 | h2
    · rw [h2] at hj
      exact hj
    · rw [h2] at hj
      rcases hj with h3 | h3 <;> exact Option.noConfusion h3
  · exact hI.invokedLt

theorem inv_step {s s' : QueueState} (hI : Inv s) (hS : Step s s') : Inv s' := by
  cases hS with
  | submit nm w pr ow md => exact inv_submitF s nm w pr ow md hI
  | runEnqueue i rest h => exact inv_runEnqueueF s i rest h hI
  | start => exact inv_startF s hI
  | stop => exact inv_stopF s hI
  | cancel i => exact inv_cancelF s i hI
  | updateProgress i v md => exact inv_updateProgressF s i v md hI
  | onComplete i c => exact inv_onCompleteF s i c hI
  | dispatchBegin i rest hr hq => exact inv_dispatchBeginF s i rest hq hI
  | dispatchFinish i h => exact inv_dispatchFinishF s i h hI
  | cleanup maxAge => exact inv_cleanupF s maxAge hI
  | tick d => exact inv_tick s d hI

theorem reachFrom_trans {a b c : QueueState} (h1 : ReachFrom a b)
    (h2 : ReachFrom b c) : ReachFrom a c := by
  induction h2 with
  | refl => exact h1
  | step hr hs ih => exact ReachFrom.step ih hs

theorem reachable_of_reachFrom {s s' : QueueState} (h : Reachable s)
    (h2 : ReachFrom s s') : Reachable s' :=
  reachFrom_trans h h2

theorem inv_reachable {s : QueueState} (h : Reachable s) : Inv s := by
  induction h with
  | refl => exact inv_initState
  | step hr hs ih => exact inv_step ih hs

theorem statusOf_lt_nextId {s : QueueState} (hI : Inv s) {i : Nat} {a : TaskStatus}
    (h : statusOf s i = some a) : i < s.nextId := by
  obtain ⟨t, ht, -⟩ := alookup_eq_some_of_statusOf h
  exact hI.keysLt i (mem_keys_of_alookup ht)

theorem statusOf_nextId_none {s : QueueState} (hI : Inv s) :
    statusOf s s.nextId = none := by
  cases h : statusOf s s.nextId with
  | none => rfl
  | some a => exact absurd (statusOf_lt_nextId hI h) (lt_irrefl s.nextId)

theorem nextId_mono {s s' : QueueState} (hS : Step s s') : s.nextId ≤ s'.nextId := by
  cases hS with
  | submit nm w pr ow md => show s.nextId ≤ s.nextId + 1; omega
  | runEnqueue i rest h => rw [show (runEnqueueF s i rest).nextId = s.nextId from by
      cases hq : s.queue <;> simp [runEnqueueF, hq]]
  | start => rw [show (startF s).nextId = s.nextId from by
      by_cases hr : s.running <;> simp [startF, hr]]
  | stop => exact le_refl _
  | cancel i => rw [show (cancelF s i).1.nextId = s.nextId from by
      cases h : alookup s.tasks i with
      | none => rw [cancelF_eq_of_none s i h]
      | some t =>
          by_cases hp : t.status = .pending
          · rw [cancelF_eq_of_pending s i t h hp]
          · rw [cancelF_eq_of_nonpending s i t h hp]]
  | updateProgress i v md => rw [show (updateProgressF s i v md).nextId = s.nextId from by
      cases h : alookup s.tasks i with
      | none => rw [updateProgressF_eq_of_none s i v md h]
      | some t => rw [updateProgressF_eq_of_some s i v md t h]]
  | onComplete i c => exact le_refl _
  | dispatchBegin i rest hr hq => rw [show (dispatchBeginF s i rest).nextId = s.nextId from by
      cases ht : alookup s.tasks i with
      | none => rw [dispatchBeginF_none s i rest ht]
      | some t =>
          by_cases hc : t.status = .cancelled
          · rw [dispatchBeginF_cancelled s i rest t ht hc]
          · rw [dispatchBeginF_run s i rest t ht hc]]
  | dispatchFinish i h => rw [show (dispatchFinishF s i).nextId = s.nextId from by
      cases ht : alookup s.tasks i with
      | none => rw [dispatchFinishF_none s i ht]
      | some t => rw [dispatchFinishF_some s i t ht]]
  | cleanup maxAge => exact le_refl _
  | tick d => exact le_refl _

theorem removableTask_true_iff (clock maxAge : Nat) (t : Task) :
    removableTask clock maxAge t = true ↔
      t.status.isTerminal = true ∧
      ∃ c, t.completed_at = some c ∧ maxAge * 3600 < clock - c := by
  rw [removableTask]
  cases hca : t.completed_at with
  | none => simp
  | some c => simp [hca]

/-- Master case analysis: how one scheduler transition can change the status
of a fixed id. Either the status is untouched, or it moves along one of the
four legal edges (run dispatch needs the id at the head of the queue, finish
needs it claimed by a worker), or a fresh id is registered PENDING, or a
terminal task with a completion timestamp is swept from the registry. -/
theorem step_statusOf_cases {s s' : QueueState} (hI : Inv s) (hS : Step s s')
    (id : Nat) :
    statusOf s' id = statusOf s id
    ∨ (statusOf s id = some .pending ∧ statusOf s' id = some .running ∧
        id ∈ queueIds s)
    ∨ (statusOf s id = some .pending ∧ statusOf s' id = some .cancelled)
    ∨ (statusOf s id = some .running ∧ id ∈ s.execs ∧
        (statusOf s' id = some .completed ∨ statusOf s' id = some .failed))
    ∨ (statusOf s id = none ∧ statusOf s' id = some .pending ∧ id = s.nextId)
    ∨ ((∃ t, alookup s.tasks id = some t ∧ t.status.isTerminal = true ∧
        t.completed_at ≠ none) ∧ statusOf s' id = none) := by
  cases hS with
  | submit nm w pr ow md =>
      rw [statusOf_submitF]
      by_cases hn : id = s.nextId
      · subst hn
        rw [if_pos rfl]
        exact Or.inr (Or.inr (Or.inr (Or.inr (Or.inl
          ⟨statusOf_nextId_none hI, rfl, rfl⟩))))
      · rw [if_neg hn]
        exact Or.inl rfl
  | runEnqueue i rest h => exact Or.inl (statusOf_runEnqueueF s i rest id)
  | start => exact Or.inl (statusOf_startF s id)
  | stop => exact Or.inl rfl
  | cancel i =>
      rw [statusOf_cancelF]
      by_cases hc : id = i ∧ statusOf s i = some TaskStatus.pending
      · rw [if_pos hc]
        exact Or.inr (Or.inr (Or.inl ⟨hc.1 ▸ hc.2, rfl⟩))
      · rw [if_neg hc]
        exact Or.inl rfl
  | updateProgress i v md => exact Or.inl (statusOf_updateProgressF s i v md id)
  | onComplete i c => exact Or.inl rfl
  | dispatchBegin i rest hr hq =>
      by_cases hj : id = i
      · subst hj
        cases ht : alookup s.tasks id with
        | none =>
            rw [dispatchBeginF_none s id rest ht]
            exact Or.inl rfl
        | some t =>
            by_cases hc : t.status = .cancelled
            · rw [dispatchBeginF_cancelled s id rest t ht hc]
              exact Or.inl rfl
            · have hqm : id ∈ queueIds s := by
                simp [queueIds, hq]
              have hqs := hI.queuedStatus id (List.mem_append.mpr (Or.inl hqm))
              have hsome := statusOf_eq_some_status ht
              have hpend : t.status = .pending := by
                rcases hqs with h2 | h2 | h2
                · rw [hsome] at h2
                  exact Option.some.inj h2
                · rw [hsome] at h2
                  exact absurd (Option.some.inj h2) hc
                · rw [hsome] at h2
                  exact Option.noConfusion h2
              rw [dispatchBeginF_run s id rest t ht hc]
              refine Or.inr (Or.inl ⟨by rw [hsome, hpend], ?_, hqm⟩)
              show (alookup (aset _ s.tasks id) id).map Task.status = _
              rw [alookup_aset, if_pos rfl, ht]
              rfl
      · rw [statusOf_dispatchBeginF_other s i rest id hj]
        exact Or.inl rfl
  | dispatchFinish i h =>
      by_cases hj : id = i
      · subst hj
        obtain ⟨t, ht, htr⟩ := exec_task_running hI h
        rw [dispatchFinishF_some s id t ht]
        have hb : statusOf { s with tasks := aset (fun _ => (runTaskBody t s.clock).1) s.tasks id, execs := s.execs.erase id, callbacks := aremoveKey s.callbacks id, fired := s.fired ++ ((alookup s.callbacks id).getD []).map (fun c => (id, c, (runTaskBody t s.clock).1)), invoked := if t.func.acceptsTaskKw then s.invoked ++ [id] else s.invoked } id = some (runTaskBody t s.clock).1.status := by
          show (alookup (aset _ s.tasks id) id).map Task.status = _
          rw [alookup_aset, if_pos rfl, ht]
          rfl
        rcases runTaskBody_status t s.clock with h2 | h2 | h2
        · exact Or.inr (Or.inr (Or.inr (Or.inl
            ⟨statusOf_eq_some_status ht ▸ (htr ▸ rfl), h,
             Or.inl (by rw [hb, h2])⟩)))
        · exact Or.inr (Or.inr (Or.inr (Or.inl
            ⟨statusOf_eq_some_status ht ▸ (htr ▸ rfl), h,
             Or.inr (by rw [hb, h2])⟩)))
        · refine Or.inl ?_
          rw [hb, h2, statusOf_eq_some_status ht]
      · rw [statusOf_dispatchFinishF_other s i id hj]
        exact Or.inl rfl
  | cleanup maxAge =>
      rw [statusOf, alookup_cleanupF s maxAge id hI.keysNodup]
      cases h0 : alookup s.tasks id with
      | none =>
          refine Or.inl ?_
          simp [statusOf, h0]
      | some t =>
          by_cases hr : removableTask s.clock maxAge t = true
          · obtain ⟨hterm, c, hc, -⟩ := (removableTask_true_iff s.clock maxAge t).mp hr
            refine Or.inr (Or.inr (Or.inr (Or.inr (Or.inr ⟨⟨t, rfl, hterm, ?_⟩, ?_⟩))))
            · rw [hc]
              exact Option.noConfusion
            · simp [hr]
          · refine Or.inl ?_
            simp [statusOf, h0, hr]
  | tick d => exact Or.inl rfl

theorem queue_head_pending {s : QueueState} (hI : Inv s) {i : Nat} {rest : List Nat}
    (hq : s.queue = some (i :: rest)) {t : Task} (ht : alookup s.tasks i = some t)
    (hc : t.status ≠ .cancelled) : t.status = .pending := by
  have hqm : i ∈ queueIds s := by simp [queueIds, hq]
  have hqs := hI.queuedStatus i (List.mem_append.mpr (Or.inl hqm))
  have hsome := statusOf_eq_some_status ht
  rcases hqs with h2 | h2 | h2
  · rw [hsome] at h2
    exact Option.some.inj h2
  · rw [hsome] at h2
    exact absurd (Option.some.inj h2) hc
  · rw [hsome] at h2
    exact Option.noConfusion h2

theorem step_allIds {s s' : QueueState} (hS : Step s s') (id : Nat)
    (h : id ∈ allIds s') : id ∈ allIds s ∨ id = s.nextId := by
  have hiff : id ∈ allIds s ↔
      id ∈ queueIds s ∨ id ∈ s.pendingEnqueues ∨ id ∈ s.execs := by
    simp [allIds, List.mem_append]
  cases hS with
  | submit nm w pr ow md =>
      have h2 : id ∈ queueIds s ++ (s.pendingEnqueues ++ [s.nextId]) ++ s.execs := h
      simp only [List.mem_append, List.mem_singleton] at h2
      rw [hiff]
      tauto
  | runEnqueue i rest hpe =>
      cases hq : s.queue with
      | some q =>
          have h2 : id ∈ (q ++ [i]) ++ rest ++ s.execs := by
            have h3 : (runEnqueueF s i rest).queue = some (q ++ [i]) ∧
                (runEnqueueF s i rest).pendingEnqueues = rest ∧
                (runEnqueueF s i rest).execs = s.execs := by
              simp [runEnqueueF, hq]
            have h4 : id ∈ allIds (runEnqueueF s i rest) := h
            rw [allIds, queueIds, h3.1, h3.2.1, h3.2.2] at h4
            exact h4
          simp only [List.mem_append, List.mem_singleton] at h2
          rw [hiff]
          simp only [queueIds, hq, Option.getD_some, hpe, List.mem_cons, List.mem_append]
          tauto
      | none =>
          have h3 : (runEnqueueF s i rest).queue = none ∧
              (runEnqueueF s i rest).pendingEnqueues = rest ∧
              (runEnqueueF s i rest).execs = s.execs := by
            simp [runEnqueueF, hq]
          have h4 : id ∈ allIds (runEnqueueF s i rest) := h
          rw [allIds, queueIds, h3.1, h3.2.1, h3.2.2] at h4
          simp only [Option.getD_none, List.nil_append, List.mem_append] at h4
          rw [hiff]
          simp only [hpe, List.mem_cons]
          tauto
  | start =>
      by_cases hr : s.running
      · rw [show startF s = s from by simp [startF, hr]] at h
        exact Or.inl h
      · rw [show startF s = { s with running := true, queue := some [] } from by
            simp [startF, hr]] at h
        have h2 : id ∈ ([] : List Nat) ++ s.pendingEnqueues ++ s.execs := h
        simp only [List.nil_append, List.mem_append] at h2
        rw [hiff]
        tauto
  | stop => exact Or.inl h
  | cancel i =>
      cases hl : alookup s.tasks i with
      | none => rw [cancelF_eq_of_none s i hl] at h; exact Or.inl h
      | some t =>
          by_cases hp : t.status = .pending
          · rw [cancelF_eq_of_pending s i t hl hp] at h
            exact Or.inl h
          · rw [cancelF_eq_of_nonpending s i t hl hp] at h
            exact Or.inl h
  | updateProgress i v md =>
      cases hl : alookup s.tasks i with
      | none => rw [updateProgressF_eq_of_none s i v md hl] at h; exact Or.inl h
      | some t =>
          rw [updateProgressF_eq_of_some s i v md t hl] at h
          exact Or.inl h
  | onComplete i c => exact Or.inl h
  | dispatchBegin i rest hr hq =>
      have hold : id ∈ queueIds s ↔ id ∈ (i :: rest : List Nat) := by
        simp [queueIds, hq]
      cases ht : alookup s.tasks i with
      | none =>
          rw [dispatchBeginF_none s i rest ht] at h
          have h2 : id ∈ rest ++ s.pendingEnqueues ++ s.execs := h
          simp only [List.mem_append] at h2
          rw [hiff, hold]
          simp only [List.mem_cons]
          tauto
      | some t =>
          by_cases hc : t.status = .cancelled
          · rw [dispatchBeginF_cancelled s i rest t ht hc] at h
            have h2 : id ∈ rest ++ s.pendingEnqueues ++ s.execs := h
            simp only [List.mem_append] at h2
            rw [hiff, hold]
            simp only [List.mem_cons]
            tauto
          · rw [dispatchBeginF_run s i rest t ht hc] at h
            have h2 : id ∈ rest ++ s.pendingEnqueues ++ (s.execs ++ [i]) := h
            simp only [List.mem_append, List.mem_singleton] at h2
            rw [hiff, hold]
            simp only [List.mem_cons]
            tauto
  | dispatchFinish i hm =>
      cases ht : alookup s.tasks i with
      | none =>
          rw [dispatchFinishF_none s i ht] at h
          have h2 : id ∈ queueIds s ++ s.pendingEnqueues ++ s.execs.erase i := h
          simp only [List.mem_append] at h2
          rw [hiff]
          rcases h2 with h3 | h3
          · tauto
          · exact Or.inl (Or.inr (Or.inr (List.mem_of_mem_erase h3)))
      | some t =>
          rw [dispatchFinishF_some s i t ht] at h
          have h2 : id ∈ queueIds s ++ s.pendingEnqueues ++ s.execs.erase i := h
          simp only [List.mem_append] at h2
          rw [hiff]
          rcases h2 with h3 | h3
          · tauto
          · exact Or.inl (Or.inr (Or.inr (List.mem_of_mem_erase h3)))
  | cleanup maxAge => exact Or.inl h
  | tick d => exact Or.inl h

theorem step_execs {s s' : QueueState} (hI : Inv s) (hS : Step s s') (id : Nat)
    (h : id ∈ s'.execs) : id ∈ s.execs ∨ statusOf s id = some .pending := by
  cases hS with
  | submit nm w pr ow md => exact Or.inl h
  | runEnqueue i rest hpe =>
      cases hq : s.queue with
      | some q =>
          refine Or.inl ?_
          have h3 : (runEnqueueF s i rest).execs = s.execs := by
            simp [runEnqueueF, hq]
          rw [h3] at h
          exact h
      | none =>
          refine Or.inl ?_
          have h3 : (runEnqueueF s i rest).execs = s.execs := by
            simp [runEnqueueF, hq]
          rw [h3] at h
          exact h
  | start =>
      by_cases hr : s.running
      · rw [show startF s = s from by simp [startF, hr]] at h
        exact Or.inl h
      · rw [show startF s = { s with running := true, queue := some [] } from by
            simp [startF, hr]] at h
        exact Or.inl h
  | stop => exact Or.inl h
  | cancel i =>
      cases hl : alookup s.tasks i with
      | none => rw [cancelF_eq_of_none s i hl] at h; exact Or.inl h
      | some t =>
          by_cases hp : t.status = .pending
          · rw [cancelF_eq_of_pending s i t hl hp] at h
            exact Or.inl h
          · rw [cancelF_eq_of_nonpending s i t hl hp] at h
            exact Or.inl h
  | updateProgress i v md =>
      cases hl : alookup s.tasks i with
      | none => rw [updateProgressF_eq_of_none s i v md hl] at h; exact Or.inl h
      | some t =>
          rw [updateProgressF_eq_of_some s i v md t hl] at h
          exact Or.inl h
  | onComplete i c => exact Or.inl h
  | dispatchBegin i rest hr hq =>
      cases ht : alookup s.tasks i with
      | none =>
          rw [dispatchBeginF_none s i rest ht] at h
          exact Or.inl h
      | some t =>
          by_cases hc : t.status = .cancelled
          · rw [dispatchBeginF_cancelled s i rest t ht hc] at h
            exact Or.inl h
          · rw [dispatchBeginF_run s i rest t ht hc] at h
            have h2 : id ∈ s.execs ++ [i] := h
            rcases List.mem_append.mp h2 with h3 | h3
            · exact Or.inl h3
            · refine Or.inr ?_
              have hid : id = i := List.mem_singleton.mp h3
              subst hid
              rw [statusOf_eq_some_status ht, queue_head_pending hI hq ht hc]
  | dispatchFinish i hm =>
      cases ht : alookup s.tasks i with
      | none =>
          rw [dispatchFinishF_none s i ht] at h
          exact Or.inl (List.mem_of_mem_erase h)
      | some t =>
          rw [dispatchFinishF_some s i t ht] at h
          exact Or.inl (List.mem_of_mem_erase h)
  | cleanup maxAge => exact Or.inl h
  | tick d => exact Or.inl h

theorem step_fired_other {s s' : QueueState} (hS : Step s s') (id : Nat)
    (hnex : id ∉ s.execs) :
    s'.fired.filter (fun e => e.1 = id) = s.fired.filter (fun e => e.1 = id) := by
  cases hS with
  | submit nm w pr ow md => rfl
  | runEnqueue i rest hpe => cases hq : s.queue <;> simp [runEnqueueF, hq]
  | start => by_cases hr : s.running <;> simp [startF, hr]
  | stop => rfl
  | cancel i =>
      cases hl : alookup s.tasks i with
      | none => rw [cancelF_eq_of_none s i hl]
      | some t =>
          by_cases hp : t.status = .pending
          · rw [cancelF_eq_of_pending s i t hl hp]
          · rw [cancelF_eq_of_nonpending s i t hl hp]
  | updateProgress i v md =>
      cases hl : alookup s.tasks i with
      | none => rw [updateProgressF_eq_of_none s i v md hl]
      | some t => rw [updateProgressF_eq_of_some s i v md t hl]
  | onComplete i c => rfl
  | dispatchBegin i rest hr hq =>
      cases ht : alookup s.tasks i with
      | none => rw [dispatchBeginF_none s i rest ht]
      | some t =>
          by_cases hc : t.status = .cancelled
          · rw [dispatchBeginF_cancelled s i rest t ht hc]
          · rw [dispatchBeginF_run s i rest t ht hc]
  | dispatchFinish i hm =>
      have hne : i ≠ id := fun he => hnex (he ▸ hm)
      cases ht : alookup s.tasks i with
      | none => rw [dispatchFinishF_none s i ht]
      | some t =>
          rw [dispatchFinishF_some s i t ht]
          show (s.fired ++ _).filter _ = _
          rw [List.filter_append]
          rw [show (((alookup s.callbacks i).getD []).map
              (fun c => (i, c, (runTaskBody t s.clock).1))).filter
              (fun e => decide (e.1 = id)) = [] from ?_]
          · rw [List.append_nil]
          · rw [List.filter_eq_nil_iff]
            intro e he
            obtain ⟨c, -, hc⟩ := List.mem_map.mp he
            rw [← hc]
            simp [hne]
  | cleanup maxAge => rfl
  | tick d => rfl

/-- A task is stranded: it is registered but its id is held by no queue,
deferred enqueue or worker, and it has not run. This is the situation of a
task whose queue entry was discarded by a restart. -/
def Stuck (s : QueueState) (id : Nat) : Prop :=
  id ∉ allIds s ∧ id < s.nextId ∧
  (statusOf s id = some .pending ∨ statusOf s id = some .cancelled)

theorem stuck_step {s s' : QueueState} (hI : Inv s) (hS : Step s s') {id : Nat}
    (h : Stuck s id) : Stuck s' id := by
  obtain ⟨hall, hlt, hst⟩ := h
  have hnexec : id ∉ s.execs := by
    intro h2
    exact hall (List.mem_append.mpr (Or.inr h2))
  have hnq : id ∉ queueIds s := by
    intro h2
    exact hall (List.mem_append.mpr (Or.inl (List.mem_append.mpr (Or.inl h2))))
  refine ⟨?_, lt_of_lt_of_le hlt (nextId_mono hS), ?_⟩
  · intro h2
    rcases step_allIds hS id h2 with h3 | h3
    · exact hall h3
    · exact absurd hlt (h3 ▸ lt_irrefl s.nextId)
  · rcases step_statusOf_cases hI hS id with h2 | h2 | h2 | h2 | h2 | h2
    · rw [h2]
      exact hst
    · exact absurd h2.2.2 hnq
    · exact Or.inr h2.2
    · rcases hst with h3 | h3 <;>
        · rw [h3] at h2
          exact TaskStatus.noConfusion (Option.some.inj h2.1)
    · rcases hst with h3 | h3 <;>
        · rw [h3] at h2
          exact Option.noConfusion h2.1
    · obtain ⟨⟨t, ht, hterm, hca⟩, -⟩ := h2
      have hpc : t.status = TaskStatus.pending ∨ t.status = TaskStatus.cancelled := by
        rcases hst with h3 | h3 <;>
          · rw [statusOf_eq_some_status ht] at h3
            first
              | exact Or.inl (Option.some.inj h3)
              | exact Or.inr (Option.some.inj h3)
      exact absurd (hI.pcNoCompleted id t ht hpc) hca

theorem stuck_reachFrom {s s' : QueueState} {id : Nat} (hI : Inv s) (h : Stuck s id)
    (hr : ReachFrom s s') : Inv s' ∧ Stuck s' id := by
  induction hr with
  | refl => exact ⟨hI, h⟩
  | step hr2 hs ih => exact ⟨inv_step ih.1 hs, stuck_step ih.1 hs ih.2⟩

/-- A task that can never fire another completion callback: no worker holds
its id, its id is spent, and it is gone, still being executed past a loop
break, or terminal. -/
def NoFire (s : QueueState) (id : Nat) : Prop :=
  id ∉ s.execs ∧ id < s.nextId ∧
  (statusOf s id = none ∨ statusOf s id = some .running ∨
   (∃ st, statusOf s id = some st ∧ st.isTerminal = true))

theorem noFire_step {s s' : QueueState} (hI : Inv s) (hS : Step s s') {id : Nat}
    (h : NoFire s id) : NoFire s' id ∧
      s'.fired.filter (fun e => e.1 = id) = s.fired.filter (fun e => e.1 = id) := by
  obtain ⟨hnex, hlt, hst⟩ := h
  have hnotpend : statusOf s id ≠ some TaskStatus.pending := by
    rcases hst with h2 | h2 | ⟨st, h2, h3⟩
    · rw [h2]; exact Option.noConfusion
    · rw [h2]
      intro h4
      exact TaskStatus.noConfusion (Option.some.inj h4)
    · rw [h2]
      intro h4
      rw [Option.some.inj h4] at h3
      exact Bool.noConfusion h3
  refine ⟨⟨?_, lt_of_lt_of_le hlt (nextId_mono hS), ?_⟩, step_fired_other hS id hnex⟩
  · intro h2
    rcases step_execs hI hS id h2 with h3 | h3
    · exact hnex h3
    · exact hnotpend h3
  · rcases step_statusOf_cases hI hS id with h2 | h2 | h2 | h2 | h2 | h2
    · rw [h2]
      exact hst
    · exact absurd h2.1 hnotpend
    · exact absurd h2.1 hnotpend
    · rcases h2.2.2 with h3 | h3
      · exact Or.inr (Or.inr ⟨.completed, h3, rfl⟩)
      · exact Or.inr (Or.inr ⟨.failed, h3, rfl⟩)
    · rcases hst with h3 | h3 | ⟨st, h3, -⟩ <;> rw [h2.1] at h3
      · exact absurd (h2.2.2 ▸ hlt) (lt_irrefl s.nextId)
      · exact Option.noConfusion h3
      · exact Option.noConfusion h3
    · exact Or.inl h2.2

theorem noFire_reachFrom {s s' : QueueState} {id : Nat} (hI : Inv s) (h : NoFire s id)
    (hr : ReachFrom s s') : Inv s' ∧ NoFire s' id ∧
      s'.fired.filter (fun e => e.1 = id) = s.fired.filter (fun e => e.1 = id) := by
  induction hr with
  | refl => exact ⟨hI, h, rfl⟩
  | step hr2 hs ih =>
      obtain ⟨hI2, hnf, hfe⟩ := ih
      obtain ⟨hnf2, hfe2⟩ := noFire_step hI2 hs hnf
      exact ⟨inv_step hI2 hs, hnf2, hfe2.trans hfe⟩

theorem cancelled_stays_step {s s' : QueueState} (hI : Inv s) (hS : Step s s')
    {id : Nat} (h : statusOf s id = some .cancelled) :
    statusOf s' id = some .cancelled := by
  rcases step_statusOf_cases hI hS id with h2 | h2 | h2 | h2 | h2 | h2
  · rw [h2, h]
  · rw [h] at h2
    exact absurd (Option.some.inj h2.1) (fun h3 => TaskStatus.noConfusion h3)
  · rw [h] at h2
    exact absurd (Option.some.inj h2.1) (fun h3 => TaskStatus.noConfusion h3)
  · rw [h] at h2
    exact absurd (Option.some.inj h2.1) (fun h3 => TaskStatus.noConfusion h3)
  · rw [h] at h2
    exact Option.noConfusion h2.1
  · obtain ⟨⟨t, ht, -, hca⟩, -⟩ := h2
    have hcs : t.status = TaskStatus.cancelled := by
      rw [statusOf_eq_some_status ht] at h
      exact Option.some.inj h
    exact absurd (hI.pcNoCompleted id t ht (Or.inr hcs)) hca

theorem cancelled_stays {s s' : QueueState} {id : Nat} (hI : Inv s)
    (h : statusOf s id = some .cancelled) (hr : ReachFrom s s') :
    Inv s' ∧ statusOf s' id = some .cancelled := by
  induction hr with
  | refl => exact ⟨hI, h⟩
  | step hr2 hs ih => exact ⟨inv_step ih.1 hs, cancelled_stays_step ih.1 hs ih.2⟩

/-! Worker-iteration characterizations and clamp arithmetic. -/

theorem workerStep_skip_none (reg : List (Nat × Task)) (cbs : List (Nat × List Nat))
    (now id : Nat) (h : alookup reg id = none) :
    workerStep reg cbs now id = ⟨reg, cbs, [], true⟩ := by
  simp [workerStep, h]

theorem workerStep_skip_cancelled (reg : List (Nat × Task))
    (cbs : List (Nat × List Nat)) (now id : Nat) (t : Task)
    (h : alookup reg id = some t) (hc : t.status = .cancelled) :
    workerStep reg cbs now id = ⟨reg, cbs, [], true⟩ := by
  simp [workerStep, h, hc]

theorem workerStep_run (reg : List (Nat × Task)) (cbs : List (Nat × List Nat))
    (now id : Nat) (t : Task) (h : alookup reg id = some t)
    (hc : t.status ≠ .cancelled) :
    workerStep reg cbs now id =
      ⟨aset (fun _ => (runTaskBody { t with status := .running, started_at := some now } now).1) reg id,
       aremoveKey cbs id,
       ((alookup cbs id).getD []).map (fun c =>
         (id, c, (runTaskBody { t with status := .running, started_at := some now } now).1)),
       (runTaskBody { t with status := .running, started_at := some now } now).2⟩ := by
  simp [workerStep, h, hc]

theorem workerLoop_cons_alive (reg : List (Nat × Task)) (cbs : List (Nat × List Nat))
    (now i : Nat) (rest : List Nat)
    (h : (workerStep reg cbs now i).alive = true) :
    workerLoop reg cbs now (i :: rest) =
      ⟨(workerLoop (workerStep reg cbs now i).tasks (workerStep reg cbs now i).callbacks now rest).tasks,
       (workerLoop (workerStep reg cbs now i).tasks (workerStep reg cbs now i).callbacks now rest).callbacks,
       (workerStep reg cbs now i).fired ++
         (workerLoop (workerStep reg cbs now i).tasks (workerStep reg cbs now i).callbacks now rest).fired,
       (workerLoop (workerStep reg cbs now i).tasks (workerStep reg cbs now i).callbacks now rest).unprocessed⟩ := by
  simp [workerLoop, h]

theorem workerLoop_cons_dead (reg : List (Nat × Task)) (cbs : List (Nat × List Nat))
    (now i : Nat) (rest : List Nat)
    (h : (workerStep reg cbs now i).alive = false) :
    workerLoop reg cbs now (i :: rest) =
      ⟨(workerStep reg cbs now i).tasks, (workerStep reg cbs now i).callbacks,
       (workerStep reg cbs now i).fired, rest⟩ := by
  simp [workerLoop, h]

theorem clampProgress_bounds (v : Int) :
    0 ≤ clampProgress v ∧ clampProgress v ≤ 100 := by
  unfold clampProgress
  exact ⟨le_min (le_max_right v 0) (by norm_num), min_le_right _ _⟩

theorem clampProgress_high (v : Int) (h : 100 ≤ v) : clampProgress v = 100 := by
  unfold clampProgress
  rw [max_eq_left (le_trans (by norm_num) h)]
  exact min_eq_right h

theorem clampProgress_low (v : Int) (h : v ≤ 0) : clampProgress v = 0 := by
  unfold clampProgress
  rw [max_eq_right h]
  exact min_eq_left (by norm_num)

/-- The legal status edges of the scheduler state machine. -/
def statusEdge : TaskStatus → TaskStatus → Bool
  | .pending, .running => true
  | .running, .completed => true
  | .running, .failed => true
  | .pending, .cancelled => true
  | _, _ => false

theorem collectRemovable_eq (clock maxAge : Nat) (l : List (Nat × Task)) :
    collectRemovable clock maxAge l =
      (l.filter (fun kv => removableTask clock maxAge kv.2)).map Prod.fst := by
  induction l with
  | nil => rfl
  | cons kv rest ih =>
      obtain ⟨k, t⟩ := kv
      by_cases hr : removableTask clock maxAge t = true <;>
        simp [collectRemovable, List.filter_cons, hr, ih]

/-! Concrete fixtures used by counterexamples and witnesses. -/

/-- Work unit that accepts the task keyword and returns 7. -/
def wOk : WorkUnit := ⟨true, .ok 7⟩

/-- Work unit whose body raises asyncio.CancelledError. -/
def wCancelledError : WorkUnit := ⟨true, .cancelledError⟩

/-- Scheduler started and then stopped, nothing submitted. -/
def sStopped : QueueState := stopF (startF initState)

/-- Scheduler started, one task (id 0) submitted. -/
def sSubmitted : QueueState := (submitF (startF initState) "job" wOk 5 none []).1

theorem sSubmitted_reachable : Reachable sSubmitted :=
  ReachFrom.step (ReachFrom.step (ReachFrom.refl _) (Step.start initState))
    (Step.submit (startF initState) "job" wOk 5 none [])

/-- C1 counterexample: the claim as stated requires `submit` to fail with
SubmissionRejected whenever the scheduler is stopped, but `TaskQueue.submit`
never consults `_running` and has no failure path: on the stopped scheduler
it still registers a PENDING task, schedules its enqueue and returns the
fresh id. -/
theorem submit_accepts_when_stopped_cex :
    sStopped.running = false ∧
    (submitF sStopped "job" wOk 5 none []).2 = 0 ∧
    statusOf (submitF sStopped "job" wOk 5 none []).1 0 = some TaskStatus.pending ∧
    (submitF sStopped "job" wOk 5 none []).1.pendingEnqueues = [0] :=
  ⟨rfl, rfl, rfl, rfl⟩

/-- C1 (amended): `submit` never fails, whatever the scheduler lifecycle
state. It always registers a fresh PENDING task under a fresh id, returns
that id immediately, appends the id to the deferred-enqueue buffer (the
fire-and-forget `_enqueue` coroutine), and touches neither the running flag,
the queue object, nor any other registered task. -/
theorem submit_always_registers_pending (s : QueueState) (nm : String)
    (w : WorkUnit) (pr : Nat) (ow : Option String) (md : List (String × String)) :
    (submitF s nm w pr ow md).2 = s.nextId ∧
    statusOf (submitF s nm w pr ow md).1 s.nextId = some TaskStatus.pending ∧
    (submitF s nm w pr ow md).1.pendingEnqueues = s.pendingEnqueues ++ [s.nextId] ∧
    (submitF s nm w pr ow md).1.running = s.running ∧
    (submitF s nm w pr ow md).1.queue = s.queue ∧
    (∀ j, j ≠ s.nextId →
      alookup (submitF s nm w pr ow md).1.tasks j = alookup s.tasks j) := by
  refine ⟨rfl, ?_, rfl, rfl, rfl, ?_⟩
  · rw [statusOf_submitF, if_pos rfl]
  · intro j hj
    show alookup ((s.nextId, _) :: s.tasks) j = alookup s.tasks j
    rw [alookup]
    rw [if_neg (fun h => hj h.symm)]

/-- C4: `update_progress` on a registered id stores the value clamped into
[0, 100] (so any value at least 100 stores 100 and any value at most 0
stores 0), merges the metadata patch key by key with the patch winning, and
leaves status, result, error and every other task untouched; on an unknown
id it changes nothing at all. -/
theorem update_progress_spec (s : QueueState) (id : Nat) (v : Int)
    (md : List (String × String)) (hnd : (md.map Prod.fst).Nodup) :
    (∀ t, alookup s.tasks id = some t →
      ∃ t2, alookup (updateProgressF s id v md).tasks id = some t2 ∧
        t2.progress = clampProgress v ∧
        (0 : Int) ≤ t2.progress ∧ t2.progress ≤ 100 ∧
        (100 ≤ v → t2.progress = 100) ∧ (v ≤ 0 → t2.progress = 0) ∧
        (∀ k, alookup t2.metadata k =
          match alookup md k with
          | some w2 => some w2
          | none => alookup t.metadata k) ∧
        t2.status = t.status ∧ t2.result = t.result ∧ t2.error = t.error) ∧
    (∀ j, j ≠ id → alookup (updateProgressF s id v md).tasks j = alookup s.tasks j) ∧
    (alookup s.tasks id = none → updateProgressF s id v md = s) := by
  refine ⟨?_, ?_, updateProgressF_eq_of_none s id v md⟩
  · intro t ht
    rw [updateProgressF_eq_of_some s id v md t ht]
    refine ⟨{ t with progress := clampProgress v, metadata := if md.isEmpty then t.metadata else dictUpdate t.metadata md },
      ?_, rfl, (clampProgress_bounds v).1, (clampProgress_bounds v).2,
      clampProgress_high v, clampProgress_low v, ?_, rfl, rfl, rfl⟩
    · show alookup (aset _ s.tasks id) id = _
      rw [alookup_aset, if_pos rfl, ht]
      rfl
    · intro k
      show alookup (if md.isEmpty then t.metadata else dictUpdate t.metadata md) k = _
      by_cases he : md.isEmpty
      · have hmd : md = [] := by
          cases md with
          | nil => rfl
          | cons a b => simp [List.isEmpty] at he
        rw [if_pos he, hmd]
        rfl
      · rw [if_neg he, alookup_dictUpdate t.metadata md hnd k]
  · intro j hj
    cases ht : alookup s.tasks id with
    | none => rw [updateProgressF_eq_of_none s id v md ht]
    | some t =>
        rw [updateProgressF_eq_of_some s id v md t ht]
        show alookup (aset _ s.tasks id) j = _
        rw [alookup_aset, if_neg hj]

/-- Scheduler with one task (id 0) carrying metadata x=1, y=2. -/
def sMeta : QueueState :=
  (submitF (startF initState) "job" wOk 5 none [("x", "1"), ("y", "2")]).1

/-- Witness for the C4 theorem: update id 0 of `sMeta` with value 150 and
patch y=9, z=3; the stored progress is 100 and the metadata merge keeps x,
overwrites y and adds z. -/
theorem update_progress_spec_witness :
    ∃ t2, alookup (updateProgressF sMeta 0 150 [("y", "9"), ("z", "3")]).tasks 0 = some t2 ∧
      t2.progress = 100 ∧
      alookup t2.metadata "x" = some "1" ∧
      alookup t2.metadata "y" = some "9" ∧
      alookup t2.metadata "z" = some "3" := by
  have h := update_progress_spec sMeta 0 150 [("y", "9"), ("z", "3")] (by decide)
  obtain ⟨t2, hl, -, -, -, hh, -, hm, -, -, -⟩ := h.1 _ rfl
  refine ⟨t2, hl, hh (by norm_num), ?_, ?_, ?_⟩
  · rw [hm "x"]
    decide
  · rw [hm "y"]
    decide
  · rw [hm "z"]
    decide

/-- C3: `cancel_task` succeeds exactly on a registered PENDING task. On a
PENDING task it returns true and flips only the status field to CANCELLED,
leaving every other field and every other task untouched, and from then on
the task stays CANCELLED and its work unit is never invoked in any
continuation of the run. On a RUNNING or terminal task, or an unknown id,
it returns false and the whole scheduler state is unchanged. -/
theorem cancel_spec (s : QueueState) (id : Nat) (hR : Reachable s) :
    (statusOf s id = some TaskStatus.pending →
      (cancelF s id).2 = true ∧
      statusOf (cancelF s id).1 id = some TaskStatus.cancelled ∧
      (∀ t, alookup s.tasks id = some t →
        alookup (cancelF s id).1.tasks id = some { t with status := TaskStatus.cancelled }) ∧
      (∀ j, j ≠ id → alookup (cancelF s id).1.tasks j = alookup s.tasks j) ∧
      (∀ s', ReachFrom (cancelF s id).1 s' →
        statusOf s' id = some TaskStatus.cancelled ∧ id ∉ s'.invoked)) ∧
    (∀ st, statusOf s id = some st → st ≠ TaskStatus.pending →
      (cancelF s id).2 = false ∧ (cancelF s id).1 = s) ∧
    (statusOf s id = none →
      (cancelF s id).2 = false ∧ (cancelF s id).1 = s) := by
  have hI := inv_reachable hR
  refine ⟨?_, ?_, ?_⟩
  · intro hp
    obtain ⟨t, ht, hts⟩ := alookup_eq_some_of_statusOf hp
    have hcc := cancelF_eq_of_pending s id t ht hts
    have hcx : statusOf (cancelF s id).1 id = some TaskStatus.cancelled := by
      rw [statusOf_cancelF, if_pos ⟨rfl, hp⟩]
    refine ⟨by rw [hcc], hcx, ?_, ?_, ?_⟩
    · intro t2 ht2
      rw [ht] at ht2
      rw [hcc]
      show alookup (aset _ s.tasks id) id = _
      rw [alookup_aset, if_pos rfl, ht]
      rw [Option.some.inj ht2]
      rfl
    · intro j hj
      rw [hcc]
      show alookup (aset _ s.tasks id) j = _
      rw [alookup_aset, if_neg hj]
    · intro s' hr'
      have hI2 : Inv (cancelF s id).1 := inv_step hI (Step.cancel s id)
      obtain ⟨hI3, hc3⟩ := cancelled_stays hI2 hcx hr'
      exact ⟨hc3, hI3.pcNotInvoked id (Or.inr hc3)⟩
  · intro st hst hne
    obtain ⟨t, ht, hts⟩ := alookup_eq_some_of_statusOf hst
    have : t.status ≠ TaskStatus.pending := by rw [hts]; exact hne
    rw [cancelF_eq_of_nonpending s id t ht this]
    exact ⟨rfl, rfl⟩
  · intro hst
    have hl : alookup s.tasks id = none := by
      rw [statusOf] at hst
      cases h0 : alookup s.tasks id with
      | none => rfl
      | some t => rw [h0] at hst; exact Option.noConfusion hst
    rw [cancelF_eq_of_none s id hl]
    exact ⟨rfl, rfl⟩

/-- Witness for the C3 theorem: cancel the pending task 0 of `sSubmitted`. -/
theorem cancel_spec_witness :
    (cancelF sSubmitted 0).2 = true ∧
    statusOf (cancelF sSubmitted 0).1 0 = some TaskStatus.cancelled ∧
    0 ∉ (cancelF sSubmitted 0).1.invoked := by
  have h := (cancel_spec sSubmitted 0 sSubmitted_reachable).1 (by decide)
  exact ⟨h.1, h.2.1,
    (h.2.2.2.2 (cancelF sSubmitted 0).1 (ReachFrom.refl _)).2⟩

/-- C7: along every transition of the scheduler, the status of every task
either stays put or moves along one of the legal edges
PENDING to RUNNING, RUNNING to COMPLETED, RUNNING to FAILED, or PENDING to
CANCELLED; in particular no transition changes the status of a task that is
already terminal. -/
theorem status_transitions_monotone (s s' : QueueState) (hR : Reachable s)
    (hS : Step s s') (id : Nat) (a b : TaskStatus)
    (ha : statusOf s id = some a) (hb : statusOf s' id = some b) :
    (a = b ∨ statusEdge a b = true) ∧ (a.isTerminal = true → b = a) := by
  have hI := inv_reachable hR
  have hmain : a = b ∨ statusEdge a b = true := by
    rcases step_statusOf_cases hI hS id with h2 | h2 | h2 | h2 | h2 | h2
    · rw [ha] at h2
      rw [h2] at hb
      exact Or.inl (Option.some.inj hb)
    · rw [ha] at h2
      have ha2 : a = TaskStatus.pending := Option.some.inj h2.1
      rw [h2.2.1] at hb
      have hb2 : b = TaskStatus.running := (Option.some.inj hb).symm
      rw [ha2, hb2]
      exact Or.inr rfl
    · rw [ha] at h2
      have ha2 : a = TaskStatus.pending := Option.some.inj h2.1
      rw [h2.2] at hb
      have hb2 : b = TaskStatus.cancelled := (Option.some.inj hb).symm
      rw [ha2, hb2]
      exact Or.inr rfl
    · rw [ha] at h2
      have ha2 : a = TaskStatus.running := Option.some.inj h2.1
      rcases h2.2.2 with h3 | h3
      · rw [h3] at hb
        have hb2 : b = TaskStatus.completed := (Option.some.inj hb).symm
        rw [ha2, hb2]
        exact Or.inr rfl
      · rw [h3] at hb
        have hb2 : b = TaskStatus.failed := (Option.some.inj hb).symm
        rw [ha2, hb2]
        exact Or.inr rfl
    · rw [ha] at h2
      exact Option.noConfusion h2.1
    · rw [h2.2] at hb
      exact Option.noConfusion hb
  refine ⟨hmain, ?_⟩
  intro hterm
  rcases hmain with h | h
  · exact h.symm
  · exfalso
    cases a <;> cases b <;> simp_all [statusEdge, TaskStatus.isTerminal]

/-- Witness for the C7 theorem: cancelling the pending task 0 of
`sSubmitted` takes the PENDING to CANCELLED edge. -/
theorem status_transitions_monotone_witness :
    (TaskStatus.pending = TaskStatus.cancelled ∨
      statusEdge TaskStatus.pending TaskStatus.cancelled = true) ∧
    (TaskStatus.pending.isTerminal = true →
      TaskStatus.cancelled = TaskStatus.pending) :=
  status_transitions_monotone sSubmitted (cancelF sSubmitted 0).1
    sSubmitted_reachable (Step.cancel sSubmitted 0) 0
    TaskStatus.pending TaskStatus.cancelled (by decide) (by decide)

/-- C8: `cleanup_old_tasks` removes from the registry exactly the tasks that
are terminal, carry a completion timestamp, and are strictly older than the
age bound; every other task (in particular every non-terminal one) stays,
and the returned count is the number removed. With age bound 0, a completed
task whose completion timestamp strictly predates the current clock is
removed, so a later status query finds nothing. -/
theorem cleanup_spec (s : QueueState) (maxAge : Nat)
    (hnd : (s.tasks.map Prod.fst).Nodup) :
    (cleanupF s maxAge).1.tasks =
      s.tasks.filter (fun kv => !(removableTask s.clock maxAge kv.2)) ∧
    (cleanupF s maxAge).2 =
      (s.tasks.filter (fun kv => removableTask s.clock maxAge kv.2)).length ∧
    (∀ id t, alookup s.tasks id = some t →
      (alookup (cleanupF s maxAge).1.tasks id = none ↔
        (t.status.isTerminal = true ∧
         ∃ c, t.completed_at = some c ∧ maxAge * 3600 < s.clock - c))) ∧
    (∀ id t, alookup s.tasks id = some t → t.status.isTerminal = false →
      alookup (cleanupF s maxAge).1.tasks id = some t) ∧
    (∀ id t, alookup s.tasks id = some t → t.status = TaskStatus.completed →
      ∀ c, t.completed_at = some c → c < s.clock →
        alookup (cleanupF s 0).1.tasks id = none) := by
  refine ⟨?_, ?_, ?_, ?_, ?_⟩
  · rw [cleanupF_tasks_eq_filter]
    refine List.filter_congr ?_
    intro kv hkv
    have hiff : kv.1 ∈ collectRemovable s.clock maxAge s.tasks ↔
        removableTask s.clock maxAge kv.2 = true := by
      rw [mem_collectRemovable]
      constructor
      · rintro ⟨t2, ht2, hrt2⟩
        have : t2 = kv.2 := alookup_unique_of_nodup hnd ht2 (by
          rw [show (kv.1, kv.2) = kv from rfl]
          exact hkv)
        rw [← this]
        exact hrt2
      · intro hr
        exact ⟨kv.2, by rw [show (kv.1, kv.2) = kv from rfl]; exact hkv, hr⟩
    by_cases hr : removableTask s.clock maxAge kv.2 = true
    · simp [hr, hiff.mpr hr]
    · have : kv.1 ∉ collectRemovable s.clock maxAge s.tasks := fun h => hr (hiff.mp h)
      simp [hr, this]
  · show (collectRemovable s.clock maxAge s.tasks).length = _
    rw [collectRemovable_eq, List.length_map]
  · intro id t ht
    have hred : alookup (cleanupF s maxAge).1.tasks id
        = if removableTask s.clock maxAge t = true then none else some t := by
      rw [alookup_cleanupF s maxAge id hnd, ht]
    rw [hred]
    by_cases hr : removableTask s.clock maxAge t = true
    · rw [if_pos hr]
      exact ⟨fun _ => (removableTask_true_iff s.clock maxAge t).mp hr, fun _ => rfl⟩
    · rw [if_neg hr]
      exact ⟨fun h2 => absurd h2 (fun h3 => Option.noConfusion h3),
             fun h2 => absurd ((removableTask_true_iff s.clock maxAge t).mpr h2) hr⟩
  · intro id t ht hnt
    have hr : removableTask s.clock maxAge t = false := by
      rw [removableTask, hnt]
      rfl
    have hred : alookup (cleanupF s maxAge).1.tasks id
        = if removableTask s.clock maxAge t = true then none else some t := by
      rw [alookup_cleanupF s maxAge id hnd, ht]
    rw [hred]
    simp [hr]
  · intro id t ht hc c hca hlt
    have hr : removableTask s.clock 0 t = true := by
      refine (removableTask_true_iff s.clock 0 t).mpr ⟨by rw [hc]; rfl, c, hca, ?_⟩
      omega
    have hred : alookup (cleanupF s 0).1.tasks id
        = if removableTask s.clock 0 t = true then none else some t := by
      rw [alookup_cleanupF s 0 id hnd, ht]
    rw [hred]
    simp [hr]

/-- A task that completed at time 3. -/
def tDone : Task :=
  { id := 0, name := "done", func := wOk, status := TaskStatus.completed,
    result := some 7, progress := 100, completed_at := some 3 }

/-- A task still pending. -/
def tWait : Task := { id := 1, name := "waiting", func := wOk }

/-- Registry state holding one completed task (id 0, finished at time 3) and
one pending task (id 1), clock at 10. -/
def sDone : QueueState :=
  { tasks := [(0, tDone), (1, tWait)], nextId := 2, clock := 10 }

/-- Witness for the C8 theorem at `sDone` with age bound 0: the completed
task is removed and the pending one stays. -/
theorem cleanup_spec_witness :
    alookup (cleanupF sDone 0).1.tasks 0 = none ∧
    (∀ t, alookup sDone.tasks 1 = some t → t.status.isTerminal = false →
      alookup (cleanupF sDone 0).1.tasks 1 = some t) ∧
    (cleanupF sDone 0).2 = 1 := by
  have h := cleanup_spec sDone 0 (by decide)
  refine ⟨?_, ?_, ?_⟩
  · exact h.2.2.2.2 0 tDone rfl rfl 3 rfl (by decide)
  · intro t ht hnt
    exact h.2.2.2.1 1 t ht hnt
  · rw [h.2.1]
    decide

/-- C10: the worker invokes every work unit with the extra keyword argument
named task (modelled by `callWork`); when the callable's signature accepts
neither a task parameter nor variadic keywords, the call itself raises a
TypeError before the body runs, so execution always ends FAILED with the
TypeError recorded in the error field, the result stays unset, and the
worker loop survives. -/
theorem task_kwarg_type_error (reg : List (Nat × Task))
    (cbs : List (Nat × List Nat)) (now id : Nat) (t : Task)
    (ht : alookup reg id = some t) (hc : t.status ≠ TaskStatus.cancelled)
    (hk : t.func.acceptsTaskKw = false) (hr0 : t.result = none) :
    alookup (workerStep reg cbs now id).tasks id =
      some { t with status := TaskStatus.failed, error := some ("TypeError" ++ ": " ++ taskKwMsg), started_at := some now, completed_at := some now } ∧
    (∀ t2, alookup (workerStep reg cbs now id).tasks id = some t2 →
      t2.status = TaskStatus.failed ∧ t2.result = none ∧
      t2.error = some ("TypeError" ++ ": " ++ taskKwMsg)) ∧
    (workerStep reg cbs now id).alive = true := by
  have hcw : callWork { t with status := TaskStatus.running, started_at := some now }.func
      = WorkResult.exc "TypeError" taskKwMsg := by
    show callWork t.func = _
    rw [callWork, hk]
    rfl
  have hbody : (runTaskBody { t with status := TaskStatus.running, started_at := some now } now)
      = ({ t with status := TaskStatus.failed, error := some ("TypeError" ++ ": " ++ taskKwMsg), started_at := some now, completed_at := some now }, true) := by
    rw [runTaskBody, hcw]
  rw [workerStep_run reg cbs now id t ht hc]
  refine ⟨?_, ?_, ?_⟩
  · show alookup (aset _ reg id) id = _
    rw [alookup_aset, if_pos rfl, ht, hbody]
    rfl
  · intro t2 ht2
    have h2 : alookup (aset (fun _ => (runTaskBody { t with status := TaskStatus.running, started_at := some now } now).1) reg id) id = some t2 := ht2
    rw [alookup_aset, if_pos rfl, ht, hbody] at h2
    simp only [Option.map_some] at h2
    have h3 := Option.some.inj h2
    rw [← h3]
    exact ⟨rfl, hr0, rfl⟩
  · show (runTaskBody _ _).2 = true
    rw [hbody]

/-- A pending task whose work unit does not accept the task keyword. -/
def tNoKw : Task := { id := 0, name := "nokw", func := ⟨false, WorkResult.ok 7⟩ }

/-- Witness for the C10 theorem: a registry holding one pending task whose
work unit does not accept the task keyword; the iteration ends FAILED with
the TypeError recorded and no result. -/
theorem task_kwarg_type_error_witness :
    (∀ t2, alookup (workerStep [(0, tNoKw)] [] 4 0).tasks 0 = some t2 →
      t2.status = TaskStatus.failed ∧ t2.result = none ∧
      t2.error = some ("TypeError" ++ ": " ++ taskKwMsg)) ∧
    (workerStep [(0, tNoKw)] [] 4 0).alive = true := by
  obtain ⟨h1, h2, h3⟩ :=
    task_kwarg_type_error [(0, tNoKw)] [] 4 0 tNoKw rfl (by decide) rfl rfl
  exact ⟨h2, h3⟩

/-- A pending task whose work unit raises asyncio.CancelledError. -/
def tBoom : Task := { id := 0, name := "boom", func := wCancelledError }

/-- A second pending task queued behind it. -/
def tLater : Task := { id := 1, name := "later", func := wOk }

/-- Registry for the C5 counterexample. -/
def regC5 : List (Nat × Task) := [(0, tBoom), (1, tLater)]

/-- C5 counterexample: the claim as stated covers any failure raised by the
work unit, but `asyncio.CancelledError` is a BaseException in Python, so the
worker's `except Exception` handler does not catch it. When task 0's work
unit raises it, the task is left RUNNING with no error recorded (only the
`finally` block stamps `completed_at`), the escaped exception hits the outer
`except asyncio.CancelledError: break`, and the worker loop terminates, so
the queued task 1 is never processed. -/
theorem worker_cancelled_error_cex :
    (workerLoop regC5 [] 5 [0, 1]).unprocessed = [1] ∧
    (alookup (workerLoop regC5 [] 5 [0, 1]).tasks 0).map Task.status =
      some TaskStatus.running ∧
    (alookup (workerLoop regC5 [] 5 [0, 1]).tasks 0).map Task.error = some none ∧
    (alookup (workerLoop regC5 [] 5 [0, 1]).tasks 0).map Task.completed_at =
      some (some 5) ∧
    (alookup (workerLoop regC5 [] 5 [0, 1]).tasks 1).map Task.status =
      some TaskStatus.pending := by
  decide

/-- C5 (amended): a failure that is an ordinary Exception is always captured:
the worker records the exception kind and message in the error field, sets
FAILED, stamps `completed_at`, never re-raises, and goes on to process the
rest of the queue. (A raised asyncio.CancelledError is the exception to the
rule: it escapes the handler and terminates the loop.) -/
theorem worker_exception_captured (reg : List (Nat × Task))
    (cbs : List (Nat × List Nat)) (now id : Nat) (rest : List Nat) (t : Task)
    (en em : String) (ht : alookup reg id = some t)
    (hc : t.status ≠ TaskStatus.cancelled) (he : callWork t.func = .exc en em) :
    (workerStep reg cbs now id).alive = true ∧
    alookup (workerStep reg cbs now id).tasks id =
      some { t with status := TaskStatus.failed, error := some (en ++ ": " ++ em), started_at := some now, completed_at := some now } ∧
    (workerLoop reg cbs now (id :: rest)).unprocessed =
      (workerLoop (workerStep reg cbs now id).tasks
        (workerStep reg cbs now id).callbacks now rest).unprocessed := by
  have hcw : callWork { t with status := TaskStatus.running, started_at := some now }.func
      = WorkResult.exc en em := he
  have hbody : (runTaskBody { t with status := TaskStatus.running, started_at := some now } now)
      = ({ t with status := TaskStatus.failed, error := some (en ++ ": " ++ em), started_at := some now, completed_at := some now }, true) := by
    rw [runTaskBody, hcw]
  have halive : (workerStep reg cbs now id).alive = true := by
    rw [workerStep_run reg cbs now id t ht hc]
    show (runTaskBody _ _).2 = true
    rw [hbody]
  refine ⟨halive, ?_, ?_⟩
  · rw [workerStep_run reg cbs now id t ht hc]
    show alookup (aset _ reg id) id = _
    rw [alookup_aset, if_pos rfl, ht, hbody]
    rfl
  · rw [workerLoop_cons_alive reg cbs now id rest halive]

/-- Witness for the amended C5 theorem: a work unit raising ValueError is
recorded as FAILED with the message, and the loop reaches the next id. -/
theorem worker_exception_captured_witness :
    (workerStep [(0, { id := 0, name := "bad", func := ⟨true, WorkResult.exc "ValueError" "bad input"⟩ })] [] 6 0).alive = true ∧
    (alookup (workerStep [(0, { id := 0, name := "bad", func := ⟨true, WorkResult.exc "ValueError" "bad input"⟩ })] [] 6 0).tasks 0).map Task.status = some TaskStatus.failed := by
  obtain ⟨h1, h2, h3⟩ := worker_exception_captured
    [(0, { id := 0, name := "bad", func := ⟨true, WorkResult.exc "ValueError" "bad input"⟩ })]
    [] 6 0 [] { id := 0, name := "bad", func := ⟨true, WorkResult.exc "ValueError" "bad input"⟩ }
    "ValueError" "bad input" rfl (by decide) rfl
  refine ⟨h1, ?_⟩
  rw [h2]
  rfl

/-- C6: when the work unit returns normally, the worker stores the returned
value in result, sets COMPLETED, forces progress to 100 and stamps
`completed_at`; the error field keeps its pre-run value (unset), and every
completion callback fired by this iteration observes the task only after
those writes: each fired record carries the COMPLETED status, the stamped
`completed_at`, the result and the forced progress. The callbacks fired are
exactly those registered for the id, in registration order. -/
theorem worker_success_spec (reg : List (Nat × Task))
    (cbs : List (Nat × List Nat)) (now id : Nat) (t : Task) (v : Nat)
    (ht : alookup reg id = some t) (hc : t.status ≠ TaskStatus.cancelled)
    (hok : callWork t.func = .ok v) (herr : t.error = none) :
    alookup (workerStep reg cbs now id).tasks id =
      some { t with status := TaskStatus.completed, result := some v, progress := 100, started_at := some now, completed_at := some now } ∧
    (∀ t2, alookup (workerStep reg cbs now id).tasks id = some t2 →
      t2.error = none) ∧
    (workerStep reg cbs now id).fired =
      ((alookup cbs id).getD []).map (fun c =>
        (id, c, { t with status := TaskStatus.completed, result := some v, progress := 100, started_at := some now, completed_at := some now })) ∧
    (∀ e ∈ (workerStep reg cbs now id).fired,
      e.2.2.status = TaskStatus.completed ∧ e.2.2.completed_at = some now ∧
      e.2.2.result = some v ∧ e.2.2.progress = 100 ∧ e.2.2.error = none) ∧
    (workerStep reg cbs now id).alive = true := by
  have hcw : callWork { t with status := TaskStatus.running, started_at := some now }.func
      = WorkResult.ok v := hok
  have hbody : (runTaskBody { t with status := TaskStatus.running, started_at := some now } now)
      = ({ t with status := TaskStatus.completed, result := some v, progress := 100, started_at := some now, completed_at := some now }, true) := by
    rw [runTaskBody, hcw]
  have hlook : alookup (workerStep reg cbs now id).tasks id =
      some { t with status := TaskStatus.completed, result := some v, progress := 100, started_at := some now, completed_at := some now } := by
    rw [workerStep_run reg cbs now id t ht hc]
    show alookup (aset _ reg id) id = _
    rw [alookup_aset, if_pos rfl, ht, hbody]
    rfl
  have hfired : (workerStep reg cbs now id).fired =
      ((alookup cbs id).getD []).map (fun c =>
        (id, c, { t with status := TaskStatus.completed, result := some v, progress := 100, started_at := some now, completed_at := some now })) := by
    rw [workerStep_run reg cbs now id t ht hc]
    show List.map _ _ = _
    rw [hbody]
  refine ⟨hlook, ?_, hfired, ?_, ?_⟩
  · intro t2 ht2
    rw [hlook] at ht2
    rw [← Option.some.inj ht2]
    exact herr
  · intro e he
    rw [hfired] at he
    obtain ⟨c, -, hce⟩ := List.mem_map.mp he
    rw [← hce]
    exact ⟨rfl, rfl, rfl, rfl, herr⟩
  · rw [workerStep_run reg cbs now id t ht hc]
    show (runTaskBody _ _).2 = true
    rw [hbody]

/-- Witness for the C6 theorem: running pending task 0 (work unit returns 7)
with one registered callback yields COMPLETED, result 7, progress 100, and a
single fired record observing those values. -/
theorem worker_success_spec_witness :
    alookup (workerStep [(1, tWait)] [(1, [3])] 8 1).tasks 1 =
      some { tWait with status := TaskStatus.completed, result := some 7, progress := 100, started_at := some 8, completed_at := some 8 } ∧
    (∀ e ∈ (workerStep [(1, tWait)] [(1, [3])] 8 1).fired,
      e.2.2.status = TaskStatus.completed ∧ e.2.2.completed_at = some 8 ∧
      e.2.2.result = some 7 ∧ e.2.2.progress = 100 ∧ e.2.2.error = none) := by
  obtain ⟨h1, h2, h3, h4, h5⟩ := worker_success_spec [(1, tWait)] [(1, [3])] 8 1
    tWait 7 (by decide) (by decide) (by decide) rfl
  exact ⟨h1, h4⟩

/-- Scheduler trace for C2: start, submit task 0, its deferred enqueue lands
in the queue, stop, start again. The second start allocates a fresh empty
queue, so task 0's id is no longer held anywhere. -/
def restartState : QueueState :=
  startF (stopF (runEnqueueF (submitF (startF initState) "job" wOk 5 none []).1 0 []))

theorem restartState_reachable : Reachable restartState :=
  ReachFrom.step (ReachFrom.step (ReachFrom.step (ReachFrom.step (ReachFrom.step
    (ReachFrom.refl _)
    (Step.start initState))
    (Step.submit (startF initState) "job" wOk 5 none []))
    (Step.runEnqueue (submitF (startF initState) "job" wOk 5 none []).1 0 [] rfl))
    (Step.stop _))
    (Step.start _)

/-- C2 counterexample: task 0 was PENDING and enqueued when `stop` was
called, and the scheduler has since been restarted, yet it is never dequeued
or run: `start` replaced the queue object with a fresh empty `asyncio.Queue`,
so in every continuation of the run the task stays PENDING (or CANCELLED if
explicitly cancelled), is never claimed by a worker and its work unit is
never invoked — refuting the claim that it is eventually dequeued and run. -/
theorem restart_discards_queue_cex :
    Reachable restartState ∧
    restartState.running = true ∧
    statusOf restartState 0 = some TaskStatus.pending ∧
    restartState.queue = some [] ∧
    (∀ s', ReachFrom restartState s' →
      (statusOf s' 0 = some TaskStatus.pending ∨
       statusOf s' 0 = some TaskStatus.cancelled) ∧
      0 ∉ s'.execs ∧ 0 ∉ s'.invoked) := by
  have hI := inv_reachable restartState_reachable
  have hstuck : Stuck restartState 0 := ⟨by decide, by decide, Or.inl (by decide)⟩
  refine ⟨restartState_reachable, by decide, by decide, by decide, ?_⟩
  intro s' hr
  obtain ⟨hI', hstuck'⟩ := stuck_reachFrom hI hstuck hr
  refine ⟨hstuck'.2.2, ?_, hI'.pcNotInvoked 0 hstuck'.2.2⟩
  intro h2
  exact hstuck'.1 (List.mem_append.mpr (Or.inr h2))

/-- C2 (amended): a task left PENDING when the scheduler stops keeps its
status while stopped, but `start` allocates a fresh empty queue, discarding
every previously enqueued id. A PENDING task whose id is held by no queue,
no deferred enqueue and no worker is stranded: in every continuation of the
run it remains PENDING (or becomes CANCELLED by an explicit cancel), is
never claimed by a worker, and its work unit is never invoked. It is never
re-registered either — it simply stays in the registry. -/
theorem stranded_pending_never_runs (s : QueueState) (id : Nat)
    (hR : Reachable s) (hp : statusOf s id = some TaskStatus.pending)
    (hni : id ∉ allIds s) :
    (s.running = false → (startF s).queue = some []) ∧
    (∀ s', ReachFrom s s' →
      (statusOf s' id = some TaskStatus.pending ∨
       statusOf s' id = some TaskStatus.cancelled) ∧
      id ∉ s'.execs ∧ id ∉ s'.invoked) := by
  have hI := inv_reachable hR
  have hstuck : Stuck s id := ⟨hni, statusOf_lt_nextId hI hp, Or.inl hp⟩
  refine ⟨?_, ?_⟩
  · intro hr
    simp [startF, hr]
  · intro s' hr'
    obtain ⟨hI', hstuck'⟩ := stuck_reachFrom hI hstuck hr'
    refine ⟨hstuck'.2.2, ?_, hI'.pcNotInvoked id hstuck'.2.2⟩
    intro h2
    exact hstuck'.1 (List.mem_append.mpr (Or.inr h2))

/-- Witness for the amended C2 theorem, applied to the restarted scheduler
and the stranded task 0. -/
theorem stranded_pending_never_runs_witness :
    (statusOf restartState 0 = some TaskStatus.pending ∨
     statusOf restartState 0 = some TaskStatus.cancelled) ∧
    0 ∉ restartState.execs ∧ 0 ∉ restartState.invoked := by
  have h := stranded_pending_never_runs restartState 0 restartState_reachable
    (by decide) (by decide)
  exact h.2 restartState (ReachFrom.refl _)

theorem alookup_addCb (m : List (Nat × List Nat)) (id c : Nat) :
    alookup (addCb m id c) id = some (((alookup m id).getD []) ++ [c]) := by
  induction m with
  | nil => simp [addCb, alookup]
  | cons kv rest ih =>
      obtain ⟨k, l⟩ := kv
      by_cases hk : k = id
      · subst hk
        simp [addCb, alookup]
      · simp [addCb, alookup, hk, ih]

/-- Scheduler trace for C9: start, submit task 0, enqueue it, register
callback 7, and let a worker claim the task (status RUNNING, id in execs). -/
def sExec : QueueState :=
  dispatchBeginF (onCompleteF (runEnqueueF (submitF (startF initState) "job" wOk 5 none []).1 0 []) 0 7) 0 []

theorem sExec_reachable : Reachable sExec :=
  ReachFrom.step (ReachFrom.step (ReachFrom.step (ReachFrom.step (ReachFrom.step
    (ReachFrom.refl _)
    (Step.start initState))
    (Step.submit (startF initState) "job" wOk 5 none []))
    (Step.runEnqueue (submitF (startF initState) "job" wOk 5 none []).1 0 [] rfl))
    (Step.onComplete (runEnqueueF (submitF (startF initState) "job" wOk 5 none []).1 0 []) 0 7))
    (Step.dispatchBegin (onCompleteF (runEnqueueF (submitF (startF initState) "job" wOk 5 none []).1 0 []) 0 7) 0 [] rfl rfl)

/-- Scheduler trace for the C9 counterexample: start, submit task 0,
register callback 7 for it, then cancel it while PENDING. -/
def cancelCbState : QueueState :=
  (cancelF (onCompleteF (submitF (startF initState) "job" wOk 5 none []).1 0 7) 0).1

theorem cancelCbState_reachable : Reachable cancelCbState :=
  ReachFrom.step (ReachFrom.step (ReachFrom.step (ReachFrom.step
    (ReachFrom.refl _)
    (Step.start initState))
    (Step.submit (startF initState) "job" wOk 5 none []))
    (Step.onComplete (submitF (startF initState) "job" wOk 5 none []).1 0 7))
    (Step.cancel (onCompleteF (submitF (startF initState) "job" wOk 5 none []).1 0 7) 0)

/-- C9 counterexample: callback 7 was registered for task 0 before the task
reached a terminal state, and the task then reached the terminal state
CANCELLED via `cancel_task` — but `cancel_task` never triggers callbacks and
the worker skips cancelled ids without triggering them either, so in every
continuation of the run no callback for task 0 ever fires: the claim that
every callback registered before a terminal state is invoked exactly once is
false. -/
theorem callback_cancelled_never_fires_cex :
    Reachable cancelCbState ∧
    statusOf cancelCbState 0 = some TaskStatus.cancelled ∧
    TaskStatus.cancelled.isTerminal = true ∧
    alookup cancelCbState.callbacks 0 = some [7] ∧
    cancelCbState.fired = [] ∧
    (∀ s', ReachFrom cancelCbState s' →
      s'.fired.filter (fun e => e.1 = 0) = []) := by
  have hI := inv_reachable cancelCbState_reachable
  have hnf : NoFire cancelCbState 0 :=
    ⟨by decide, by decide, Or.inr (Or.inr ⟨TaskStatus.cancelled, by decide, rfl⟩)⟩
  refine ⟨cancelCbState_reachable, by decide, rfl, by decide, by decide, ?_⟩
  intro s' hr
  obtain ⟨-, -, hfe⟩ := noFire_reachFrom hI hnf hr
  rw [hfe]
  decide

/-- C9 (amended): `on_complete` appends the callback to the id's registration
list, so registrations are kept in order. When a worker finishes executing a
task, it pops the id's registration list and fires exactly those callbacks,
in registration order, each observing the task only after `completed_at` (and
on a normal return or ordinary exception the terminal status) has been
written; the popped list guarantees each registration fires exactly once,
and afterwards no callback for that id ever fires again — so a callback
registered after the task finished is never invoked. Callbacks of a task
cancelled while PENDING never fire at all (see the counterexample). -/
theorem callbacks_fire_exactly_once (s : QueueState) (i c : Nat)
    (hR : Reachable s) (hex : i ∈ s.execs) :
    (alookup (onCompleteF s i c).callbacks i =
      some (((alookup s.callbacks i).getD []) ++ [c])) ∧
    ∃ t, alookup s.tasks i = some t ∧
      (dispatchFinishF s i).fired = s.fired ++
        ((alookup s.callbacks i).getD []).map
          (fun c2 => (i, c2, (runTaskBody t s.clock).1)) ∧
      alookup (dispatchFinishF s i).callbacks i = none ∧
      (runTaskBody t s.clock).1.completed_at = some s.clock ∧
      (callWork t.func ≠ WorkResult.cancelledError →
        (runTaskBody t s.clock).1.status.isTerminal = true) ∧
      (∀ s', ReachFrom (dispatchFinishF s i) s' →
        s'.fired.filter (fun e => e.1 = i) =
          (dispatchFinishF s i).fired.filter (fun e => e.1 = i)) := by
  have hI := inv_reachable hR
  obtain ⟨t, ht, htr⟩ := exec_task_running hI hex
  have hfired : (dispatchFinishF s i).fired = s.fired ++
      ((alookup s.callbacks i).getD []).map
        (fun c2 => (i, c2, (runTaskBody t s.clock).1)) := by
    rw [dispatchFinishF_some s i t ht]
  have hcb : alookup (dispatchFinishF s i).callbacks i = none := by
    rw [dispatchFinishF_some s i t ht]
    show alookup (aremoveKey s.callbacks i) i = none
    rw [alookup_aremoveKey, if_pos rfl]
  have hterm : callWork t.func ≠ WorkResult.cancelledError →
      (runTaskBody t s.clock).1.status.isTerminal = true := by
    intro hnc
    cases hcw : callWork t.func with
    | ok v => simp [runTaskBody, hcw, TaskStatus.isTerminal]
    | exc en em => simp [runTaskBody, hcw, TaskStatus.isTerminal]
    | cancelledError => exact absurd hcw hnc
  have hnf : NoFire (dispatchFinishF s i) i := by
    refine ⟨?_, ?_, ?_⟩
    · rw [dispatchFinishF_some s i t ht]
      show i ∉ s.execs.erase i
      have hexnd : s.execs.Nodup := (List.nodup_append.mp hI.idsNodup).2.1
      intro h2
      exact ((List.Nodup.mem_erase_iff hexnd).mp h2).1 rfl
    · have hnid : (dispatchFinishF s i).nextId = s.nextId := by
        rw [dispatchFinishF_some s i t ht]
      rw [hnid]
      exact hI.idsLt i (List.mem_append.mpr (Or.inr hex))
    · have hsi : statusOf (dispatchFinishF s i) i =
          some (runTaskBody t s.clock).1.status := by
        rw [dispatchFinishF_some s i t ht]
        show (alookup (aset _ s.tasks i) i).map Task.status = _
        rw [alookup_aset, if_pos rfl, ht]
        rfl
      rcases runTaskBody_status t s.clock with h2 | h2 | h2
      · exact Or.inr (Or.inr ⟨_, hsi, by rw [h2]; rfl⟩)
      · exact Or.inr (Or.inr ⟨_, hsi, by rw [h2]; rfl⟩)
      · rw [h2, htr] at hsi
        exact Or.inr (Or.inl hsi)
  refine ⟨alookup_addCb s.callbacks i c, t, ht, hfired, hcb,
    runTaskBody_completed_at t s.clock, hterm, ?_⟩
  intro s' hr'
  have hI2 := inv_step hI (Step.dispatchFinish s i hex)
  obtain ⟨-, -, hfe⟩ := noFire_reachFrom hI2 hnf hr'
  exact hfe

/-- Witness for the amended C9 theorem, applied to the claimed task 0 of
`sExec` with callback 7 registered: finishing the task pops the
registration, fires exactly the pair (task 0, callback 7), and every fired
record carries the stamped completion time. -/
theorem callbacks_fire_exactly_once_witness :
    alookup (dispatchFinishF sExec 0).callbacks 0 = none ∧
    (dispatchFinishF sExec 0).fired.map (fun e => (e.1, e.2.1)) = [(0, 7)] ∧
    (∀ e ∈ (dispatchFinishF sExec 0).fired,
      e.2.2.completed_at = some sExec.clock) := by
  obtain ⟨hreg, t, ht, hfired, hcb, hca, hterm, htmp⟩ :=
    callbacks_fire_exactly_once sExec 0 99 sExec_reachable (by decide)
  refine ⟨hcb, ?_, ?_⟩
  · rw [hfired, show sExec.fired = [] from rfl,
      show (alookup sExec.callbacks 0).getD [] = [7] from rfl]
    rfl
  · intro e he
    rw [hfired, show sExec.fired = [] from rfl,
      show (alookup sExec.callbacks 0).getD [] = [7] from rfl] at he
    simp only [List.nil_append, List.map_cons, List.map_nil,
      List.mem_singleton] at he
    rw [he]
    exact hca

end VibeEdit
